import Mathlib

/-!
Verification of the localize-cli translation pipeline (src/main.rs).

The program reads nested JSON localization documents, flattens them to a
sorted map of dotted keys to strings (`flatten_json`), deduplicates the
values, fetches translations under a global semaphore, rebuilds a tree per
target language (`unflatten_json`), and writes output files only when the
serialized content changed.

JSON objects are `serde_json::Map` = `BTreeMap<String, Value>`, modelled
here as association lists with strictly increasing keys.  `BTreeMap` uses
Rust's `Ord` on `String` (byte-lexicographic), which on UTF-8 agrees with
the codepoint-lexicographic order used by Lean's `String` order.
-/

set_option maxRecDepth 4096

/-- `BTreeMap::insert` on a key-sorted association list: the value of an
existing key is replaced, a new key is placed at its sorted position. -/
def insertSorted {α : Type} (k : String) (v : α) :
    List (String × α) → List (String × α)
  | [] => [(k, v)]
  | (k', v') :: rest =>
    if k < k' then (k, v) :: (k', v') :: rest
    else if k = k' then (k, v) :: rest
    else (k', v') :: insertSorted k v rest

/-- `BTreeMap::get` / `Map::entry` lookup on an association list. -/
def lookupKey {α : Type} (k : String) : List (String × α) → Option α
  | [] => none
  | (k', v) :: rest => if k = k' then some v else lookupKey k rest

/-- Rust `str::split('.')` on a character list: splits at every `'.'`,
keeping empty segments; the result is always nonempty. -/
def splitDotChars : List Char → List (List Char)
  | [] => [[]]
  | c :: rest =>
    if c = '.' then [] :: splitDotChars rest
    else
      match splitDotChars rest with
      | [] => [[c]]
      | s :: ss => (c :: s) :: ss

/-- Rust `key.split('.').collect::<Vec<_>>()`. -/
def splitDot (s : String) : List String :=
  (splitDotChars s.data).map String.mk

/-- Joins segments with `"."`; inverse of `splitDot` on its image. -/
def joinDot : List String → String
  | [] => ""
  | [s] => s
  | s :: s' :: rest => s ++ "." ++ joinDot (s' :: rest)

/-- `serde_json::Value`.  Objects carry their entries in strictly
increasing key order (the `BTreeMap` representation invariant). -/
inductive Json where
  | str : String → Json
  | num : Int → Json
  | bool : Bool → Json
  | null : Json
  | arr : List Json → Json
  | obj : List (String × Json) → Json

/-- The flat-map type produced by `flatten_json`: a `BTreeMap<String,String>`
as a key-sorted association list. -/
abbrev Entries := List (String × String)

/-- Path construction in `flatten_json`: the child key alone at the root,
otherwise `format!("{}.{}", prefix, k)`. -/
def joinKey (pre k : String) : String :=
  if pre = "" then k else pre ++ "." ++ k

/-- `flatten_json` from src/main.rs: walks the tree, inserting
`path ↦ s` for every string leaf; all other leaf kinds are skipped. -/
def flatten_json : Json → String → Entries → Entries
  | Json.obj [], _, m => m
  | Json.obj ((k, v) :: rest), pre, m =>
    flatten_json (Json.obj rest) pre (flatten_json v (joinKey pre k) m)
  | Json.str s, pre, m => insertSorted pre s m
  | Json.num _, _, m => m
  | Json.bool _, _, m => m
  | Json.null, _, m => m
  | Json.arr _, _, m => m

/-- One entry of the `unflatten_json` loop body: walk/create intermediate
object nodes for all but the last segment, set the last segment to the
string value.  `none` models the panic of
`.as_object_mut().unwrap()` when an intermediate segment is already bound
to a non-object value. -/
def insertPath : List String → String → List (String × Json) →
    Option (List (String × Json))
  | [], _, m => some m
  | [last], v, m => some (insertSorted last (Json.str v) m)
  | seg :: s2 :: rest, v, m =>
    match lookupKey seg m with
    | none =>
      match insertPath (s2 :: rest) v [] with
      | none => none
      | some sub => some (insertSorted seg (Json.obj sub) m)
    | some (Json.obj sub) =>
      match insertPath (s2 :: rest) v sub with
      | none => none
      | some sub' => some (insertSorted seg (Json.obj sub') m)
    | some _ => none

/-- The `for (key, val) in flat` loop of `unflatten_json`, iterating in
`BTreeMap` (sorted) order. -/
def unflattenGo : Entries → List (String × Json) →
    Option (List (String × Json))
  | [], root => some root
  | (k, v) :: rest, root =>
    match insertPath (splitDot k) v root with
    | none => none
    | some root' => unflattenGo rest root'

/-- `unflatten_json` from src/main.rs.  `none` models the panic on a
leaf/ancestor path collision; otherwise the result is `Value::Object(root)`. -/
def unflatten_json (flat : Entries) : Option Json :=
  (unflattenGo flat []).map Json.obj

/-- Key order on association-list entries. -/
def keyLt {α : Type} (a b : String × α) : Prop := a.1 < b.1

/-- The `BTreeMap` representation invariant: keys strictly increasing. -/
def SortedKeys {α : Type} (l : List (String × α)) : Prop := List.Chain' keyLt l

/-! ### Specification devices: well-formed trees and their leaf paths -/

/-- Well-formed tree values, as produced by parsing into / building a
`serde_json` map: only string leaves and objects, objects sorted and
(below the root) nonempty. -/
inductive ValWF : Json → Prop where
  | str (s : String) : ValWF (Json.str s)
  | obj (g : List (String × Json)) (hne : g ≠ []) (hsort : SortedKeys g)
      (hvals : ∀ p ∈ g, ValWF p.2) : ValWF (Json.obj g)

/-- Well-formedness of a (possibly empty) root object's field list. -/
def FieldsWF (g : List (String × Json)) : Prop :=
  SortedKeys g ∧ ∀ p ∈ g, ValWF p.2

/-- All (segment-path, leaf-string) pairs of a value; paths are relative
to the value itself (`[]` for a bare string). -/
def pairsSegV : Json → List (List String × String)
  | Json.str s => [([], s)]
  | Json.obj [] => []
  | Json.obj ((k, v) :: rest) =>
    (pairsSegV v).map (fun q => (k :: q.1, q.2)) ++ pairsSegV (Json.obj rest)
  | Json.num _ => []
  | Json.bool _ => []
  | Json.null => []
  | Json.arr _ => []

/-- Leaf paths of a field list, each path led by the field's key. -/
def pairsSegF (g : List (String × Json)) : List (List String × String) :=
  pairsSegV (Json.obj g)

theorem pairsSegF_nil : pairsSegF [] = [] := by
  simp [pairsSegF, pairsSegV]

theorem pairsSegF_cons (k : String) (v : Json) (rest : List (String × Json)) :
    pairsSegF ((k, v) :: rest)
      = (pairsSegV v).map (fun q => (k :: q.1, q.2)) ++ pairsSegF rest := by
  simp [pairsSegF, pairsSegV]

theorem pairsSegF_path_ne_nil {g : List (String × Json)}
    {q : List String} {s : String} (h : (q, s) ∈ pairsSegF g) : q ≠ [] := by
  induction g with
  | nil => rw [pairsSegF_nil] at h; exact absurd h (List.not_mem_nil _)
  | cons p rest ih =>
    obtain ⟨k, v⟩ := p
    rw [pairsSegF_cons] at h
    rcases List.mem_append.mp h with h | h
    · obtain ⟨q0, hq0, hq⟩ := List.mem_map.mp h
      intro hnil
      rw [hnil] at hq
      exact absurd (congrArg Prod.fst hq) (by simp)
    · exact ih h

theorem pairsSegV_ne_nil {v : Json} (h : ValWF v) : pairsSegV v ≠ [] := by
  induction h with
  | str s => simp [pairsSegV]
  | obj g hne hsort hvals ih =>
    cases g with
    | nil => exact absurd rfl hne
    | cons p rest =>
      obtain ⟨k, v'⟩ := p
      have : pairsSegV v' ≠ [] := ih (k, v') (by simp)
      show pairsSegF ((k, v') :: rest) ≠ []
      rw [pairsSegF_cons]
      simp only [ne_eq, List.append_eq_nil, List.map_eq_nil_iff, not_and]
      intro hmap
      exact absurd hmap this

theorem pairsSegF_ne_nil {g : List (String × Json)} (hwf : FieldsWF g)
    (hne : g ≠ []) : pairsSegF g ≠ [] :=
  pairsSegV_ne_nil (ValWF.obj g hne hwf.1 hwf.2)

theorem pairsSegF_head_key {g : List (String × Json)}
    {q : List String} {s : String} (h : (q, s) ∈ pairsSegF g) :
    ∃ kv ∈ g, q.head? = some kv.1 := by
  induction g with
  | nil => rw [pairsSegF_nil] at h; exact absurd h (List.not_mem_nil _)
  | cons p rest ih =>
    obtain ⟨k, v⟩ := p
    rw [pairsSegF_cons] at h
    rcases List.mem_append.mp h with h | h
    · obtain ⟨q0, hq0, hq⟩ := List.mem_map.mp h
      refine ⟨(k, v), by simp, ?_⟩
      have h1 : k :: q0.1 = q := congrArg Prod.fst hq
      rw [← h1]
      simp
    · obtain ⟨kv, hkv, hh⟩ := ih h
      exact ⟨kv, List.mem_cons_of_mem _ hkv, hh⟩

theorem mem_pairsSegF_of_entry {g : List (String × Json)} {k : String}
    {v : Json} (hmem : (k, v) ∈ g) {q0 : List String} {s0 : String}
    (hq0 : (q0, s0) ∈ pairsSegV v) : (k :: q0, s0) ∈ pairsSegF g := by
  induction g with
  | nil => exact absurd hmem (List.not_mem_nil _)
  | cons p rest ih =>
    obtain ⟨k', v'⟩ := p
    rw [pairsSegF_cons]
    rcases List.mem_cons.mp hmem with h | h
    · apply List.mem_append_left
      injection h with hk hv
      subst hk hv
      exact List.mem_map.mpr ⟨(q0, s0), hq0, rfl⟩
    · exact List.mem_append_right _ (ih h)

theorem mem_pairsSegF_of_str {g : List (String × Json)} {k : String}
    {s : String} (hmem : (k, Json.str s) ∈ g) : ([k], s) ∈ pairsSegF g :=
  mem_pairsSegF_of_entry hmem (by simp [pairsSegV])

theorem pairsSegF_key_path {g : List (String × Json)} {k : String} {v : Json}
    (hwf : ∀ p ∈ g, ValWF p.2) (hmem : (k, v) ∈ g) :
    ∃ q s, (q, s) ∈ pairsSegF g ∧ q.head? = some k := by
  have hv : ValWF v := hwf (k, v) hmem
  obtain ⟨⟨q0, s0⟩, hq0⟩ : ∃ p, p ∈ pairsSegV v := by
    rcases hp : pairsSegV v with _ | ⟨p, ps⟩
    · exact absurd hp (pairsSegV_ne_nil hv)
    · exact ⟨p, by simp⟩
  exact ⟨k :: q0, s0, mem_pairsSegF_of_entry hmem hq0, rfl⟩

example : flatten_json (Json.obj [("a", Json.obj [("b", Json.str "x")])]) "" []
    = [("a.b", "x")] := by
  simp [flatten_json, joinKey, insertSorted]

example : unflatten_json [("a.b", "x")]
    = some (Json.obj [("a", Json.obj [("b", Json.str "x")])]) := rfl

example : unflatten_json [("a", "x"), ("a.b", "y")] = none := rfl

example : splitDot ".b" = ["", "b"] := by decide

/-! ### Generic facts about `insertSorted` and `lookupKey` -/

theorem keyLt_trans {α : Type} : Transitive (@keyLt α) :=
  fun _ _ _ h1 h2 => lt_trans h1 h2

instance {α : Type} : IsTrans (String × α) keyLt :=
  ⟨fun _ _ _ h1 h2 => lt_trans h1 h2⟩

theorem sortedKeys_pairwise {α : Type} {l : List (String × α)}
    (h : SortedKeys l) : List.Pairwise keyLt l :=
  List.chain'_iff_pairwise.mp h

theorem insertSorted_ne_nil {α : Type} (k : String) (v : α)
    (l : List (String × α)) : insertSorted k v l ≠ [] := by
  cases l with
  | nil => simp [insertSorted]
  | cons p rest =>
    simp only [insertSorted]
    split
    · simp
    · split <;> simp

theorem mem_insertSorted {α : Type} {k : String} {v : α}
    {l : List (String × α)} {p : String × α}
    (h : p ∈ insertSorted k v l) : p = (k, v) ∨ p ∈ l := by
  induction l with
  | nil => simpa [insertSorted] using h
  | cons q rest ih =>
    simp only [insertSorted] at h
    split at h
    · rcases (List.mem_cons.mp h) with h | h
      · exact Or.inl h
      · exact Or.inr h
    · split at h
      · rcases (List.mem_cons.mp h) with h | h
        · exact Or.inl h
        · exact Or.inr (List.mem_cons_of_mem _ h)
      · rcases (List.mem_cons.mp h) with h | h
        · exact Or.inr (List.mem_cons.mpr (Or.inl h))
        · rcases ih h with h | h
          · exact Or.inl h
          · exact Or.inr (List.mem_cons_of_mem _ h)

theorem insertSorted_perm_fresh {α : Type} {k : String} (v : α)
    {l : List (String × α)} (hk : k ∉ l.map Prod.fst) :
    List.Perm (insertSorted k v l) ((k, v) :: l) := by
  induction l with
  | nil => simp [insertSorted]
  | cons q rest ih =>
    simp only [List.map_cons, List.mem_cons] at hk
    push_neg at hk
    simp only [insertSorted]
    split
    · exact List.Perm.refl _
    · split
      · exact absurd ‹k = q.1› hk.1
      · exact List.Perm.trans ((ih hk.2).cons q) (List.Perm.swap _ _ _)

theorem head?_insertSorted {α : Type} (k : String) (v : α)
    (l : List (String × α)) {p : String × α}
    (h : (insertSorted k v l).head? = some p) :
    p = (k, v) ∨ l.head? = some p := by
  cases l with
  | nil =>
    simp only [insertSorted, List.head?_cons, Option.some.injEq] at h
    exact Or.inl h.symm
  | cons q rest =>
    obtain ⟨k', v'⟩ := q
    simp only [insertSorted] at h
    split at h
    · simp only [List.head?_cons, Option.some.injEq] at h
      exact Or.inl h.symm
    · split at h
      · simp only [List.head?_cons, Option.some.injEq] at h
        exact Or.inl h.symm
      · simp only [List.head?_cons, Option.some.injEq] at h
        exact Or.inr (by simp [← h])

theorem insertSorted_sorted {α : Type} {k : String} {v : α}
    {l : List (String × α)} (h : SortedKeys l) :
    SortedKeys (insertSorted k v l) := by
  induction l with
  | nil => simp [SortedKeys, insertSorted]
  | cons q rest ih =>
    have hrest : SortedKeys rest := h.tail
    simp only [insertSorted]
    split
    · exact List.Chain'.cons ‹k < q.1› h
    · split
      · rename_i hne heq
        refine List.Chain'.cons' hrest ?_
        intro p hp
        have hq := h.rel_head? hp
        simpa [keyLt, heq] using hq
      · rename_i hlt hne
        have hq : q.1 < k := by
          rcases lt_trichotomy k q.1 with h1 | h1 | h1
          · exact absurd h1 hlt
          · exact absurd h1 hne
          · exact h1
        refine List.Chain'.cons' (ih hrest) ?_
        intro p hp
        rcases head?_insertSorted k v rest hp with rfl | hp
        · exact hq
        · exact h.rel_head? hp

theorem lookupKey_eq_none {α : Type} {k : String} {l : List (String × α)} :
    lookupKey k l = none ↔ k ∉ l.map Prod.fst := by
  induction l with
  | nil => simp [lookupKey]
  | cons q rest ih =>
    simp only [lookupKey, List.map_cons, List.mem_cons]
    split
    · simp [‹k = q.1›]
    · simp [ih, ‹¬ k = q.1›]

/-! ### Splitting on and joining with `'.'` -/

/-- Character-level join with `'.'`; the inverse of `splitDotChars`. -/
def charsJoin : List (List Char) → List Char
  | [] => []
  | [c] => c
  | c :: c2 :: rest => c ++ '.' :: charsJoin (c2 :: rest)

theorem splitDotChars_ne_nil (cs : List Char) : splitDotChars cs ≠ [] := by
  cases cs with
  | nil => simp [splitDotChars]
  | cons c rest =>
    simp only [splitDotChars]
    split
    · simp
    · split <;> simp

theorem splitDot_ne_nil (s : String) : splitDot s ≠ [] := by
  intro h
  exact splitDotChars_ne_nil s.data (by simpa [splitDot] using h)

theorem charsJoin_splitDotChars (cs : List Char) :
    charsJoin (splitDotChars cs) = cs := by
  induction cs with
  | nil => rfl
  | cons c rest ih =>
    simp only [splitDotChars]
    split
    · rename_i hc
      subst hc
      obtain ⟨s, ss, hss⟩ : ∃ s ss, splitDotChars rest = s :: ss := by
        cases h : splitDotChars rest with
        | nil => exact absurd h (splitDotChars_ne_nil rest)
        | cons s ss => exact ⟨s, ss, rfl⟩
      rw [hss] at ih ⊢
      simp [charsJoin, ih]
    · rename_i hc
      cases h : splitDotChars rest with
      | nil => exact absurd h (splitDotChars_ne_nil rest)
      | cons s ss =>
        rw [h] at ih
        cases ss with
        | nil => simpa [charsJoin, ih] using congrArg (c :: ·) ih
        | cons s2 ss2 => simpa [charsJoin] using congrArg (c :: ·) ih

theorem splitDotChars_no_dot {cs : List Char} (h : '.' ∉ cs) :
    splitDotChars cs = [cs] := by
  induction cs with
  | nil => rfl
  | cons c rest ih =>
    simp only [List.mem_cons] at h
    push_neg at h
    simp only [splitDotChars]
    rw [if_neg (fun hc => h.1 hc.symm), ih h.2]

theorem splitDotChars_append_dot (xs ys : List Char) :
    splitDotChars (xs ++ '.' :: ys) = splitDotChars xs ++ splitDotChars ys := by
  induction xs with
  | nil => simp [splitDotChars]
  | cons c rest ih =>
    simp only [List.cons_append, splitDotChars, List.append_eq]
    split
    · rw [ih]
      simp [List.cons_append]
    · rw [ih]
      obtain ⟨s, ss, hss⟩ : ∃ s ss, splitDotChars rest = s :: ss := by
        cases h : splitDotChars rest with
        | nil => exact absurd h (splitDotChars_ne_nil rest)
        | cons s ss => exact ⟨s, ss, rfl⟩
      rw [hss]
      simp [List.cons_append]

theorem charsSplit_charsJoin {l : List (List Char)} (hne : l ≠ [])
    (hdot : ∀ c ∈ l, '.' ∉ c) : splitDotChars (charsJoin l) = l := by
  induction l with
  | nil => exact absurd rfl hne
  | cons c rest ih =>
    cases rest with
    | nil =>
      simp only [charsJoin]
      exact splitDotChars_no_dot (hdot c (by simp))
    | cons c2 rest2 =>
      simp only [charsJoin]
      rw [splitDotChars_append_dot, splitDotChars_no_dot (hdot c (by simp))]
      rw [ih (by simp) (fun x hx => hdot x (List.mem_cons_of_mem _ hx))]
      simp

theorem string_data_append (s t : String) : (s ++ t).data = s.data ++ t.data := rfl

theorem string_mk_data (s : String) : String.mk s.data = s := rfl

theorem joinDot_data (ss : List String) :
    (joinDot ss).data = charsJoin (ss.map String.data) := by
  induction ss with
  | nil => rfl
  | cons s rest ih =>
    cases rest with
    | nil => rfl
    | cons s2 rest2 =>
      have hstep : joinDot (s :: s2 :: rest2) = s ++ "." ++ joinDot (s2 :: rest2) := rfl
      have hdot : (("." : String)).data = ['.'] := rfl
      rw [hstep, string_data_append, string_data_append, hdot, ih]
      simp only [List.map_cons, charsJoin]
      simp

theorem joinDot_splitDot (s : String) : joinDot (splitDot s) = s := by
  apply String.ext
  rw [splitDot, joinDot_data, List.map_map]
  have : (String.data ∘ String.mk) = id := by
    funext cs
    rfl
  rw [this, List.map_id]
  exact charsJoin_splitDotChars s.data

theorem splitDot_joinDot {ss : List String} (hne : ss ≠ [])
    (hdot : ∀ s ∈ ss, '.' ∉ s.data) : splitDot (joinDot ss) = ss := by
  rw [splitDot, joinDot_data]
  rw [charsSplit_charsJoin (by simpa using hne)
    (by intro c hc; obtain ⟨s, hs, rfl⟩ := List.mem_map.mp hc; exact hdot s hs)]
  rw [List.map_map]
  have : (String.mk ∘ String.data) = id := by
    funext s
    rfl
  rw [this, List.map_id]

theorem splitDot_inj {a b : String} (h : splitDot a = splitDot b) : a = b := by
  have := congrArg joinDot h
  rwa [joinDot_splitDot, joinDot_splitDot] at this

theorem splitDotChars_head_dot {cs : List Char} {q : List (List Char)}
    (h : splitDotChars cs = [] :: q) (hq : q ≠ []) : cs.head? = some '.' := by
  cases cs with
  | nil =>
    simp only [splitDotChars, List.cons.injEq] at h
    exact absurd h.2.symm hq
  | cons c rest =>
    simp only [splitDotChars] at h
    split at h
    · simp [‹c = '.'›]
    · exfalso
      rcases hsplit : splitDotChars rest with _ | ⟨s', ss'⟩
      · exact splitDotChars_ne_nil rest hsplit
      · rw [hsplit] at h
        simp at h

theorem splitDot_head_dot {k : String} {q : List String}
    (h : splitDot k = "" :: q) (hq : q ≠ []) : k.data.head? = some '.' := by
  rw [splitDot] at h
  rcases hcs : splitDotChars k.data with _ | ⟨s, ss⟩
  · exact absurd hcs (splitDotChars_ne_nil _)
  · rw [hcs] at h
    simp only [List.map_cons, List.cons.injEq] at h
    have hs : s = [] := by
      have := congrArg String.data h.1
      simpa using this
    subst hs
    apply splitDotChars_head_dot hcs
    intro hss
    apply hq
    rw [← h.2, hss]
    rfl

theorem perm_append_swap {α : Type} (a b c : List α) :
    List.Perm (a ++ (b ++ c)) (b ++ (a ++ c)) := by
  have h1 : a ++ (b ++ c) = (a ++ b) ++ c := (List.append_assoc a b c).symm
  have h2 : (b ++ a) ++ c = b ++ (a ++ c) := List.append_assoc b a c
  rw [h1, ← h2]
  exact (List.perm_append_comm).append_right c

theorem fieldsWF_nil : FieldsWF [] :=
  ⟨List.chain'_nil, by intro p hp; exact absurd hp (List.not_mem_nil p)⟩

theorem fieldsWF_tail {p : String × Json} {rest : List (String × Json)}
    (h : FieldsWF (p :: rest)) : FieldsWF rest :=
  ⟨h.1.tail, fun q hq => h.2 q (List.mem_cons_of_mem _ hq)⟩

theorem fieldsWF_insertSorted {k : String} {v : Json}
    {g : List (String × Json)} (hg : FieldsWF g) (hv : ValWF v) :
    FieldsWF (insertSorted k v g) := by
  refine ⟨insertSorted_sorted hg.1, ?_⟩
  intro p hp
  rcases mem_insertSorted hp with rfl | hp
  · exact hv
  · exact hg.2 p hp

theorem pairsSegF_insertSorted_fresh {k : String} {v : Json}
    {g : List (String × Json)} (hk : k ∉ g.map Prod.fst) :
    List.Perm (pairsSegF (insertSorted k v g))
      ((pairsSegV v).map (fun q => (k :: q.1, q.2)) ++ pairsSegF g) := by
  induction g with
  | nil =>
    simp only [insertSorted, pairsSegF_cons, pairsSegF_nil]
    exact List.Perm.refl _
  | cons p rest ih =>
    obtain ⟨k', v'⟩ := p
    simp only [List.map_cons, List.mem_cons] at hk
    push_neg at hk
    simp only [insertSorted]
    split
    · rw [pairsSegF_cons]
    · split
      · exact absurd ‹k = k'› hk.1
      · rw [pairsSegF_cons, pairsSegF_cons]
        exact List.Perm.trans ((ih hk.2).append_left _) (perm_append_swap _ _ _)

theorem pairsSegF_insertSorted_replace {k : String} {w w0 : Json}
    {g : List (String × Json)} (hs : SortedKeys g) (hmem : (k, w0) ∈ g) :
    List.Perm
      (pairsSegF (insertSorted k w g)
        ++ (pairsSegV w0).map (fun q => (k :: q.1, q.2)))
      ((pairsSegV w).map (fun q => (k :: q.1, q.2)) ++ pairsSegF g) := by
  induction g with
  | nil => exact absurd hmem (List.not_mem_nil _)
  | cons p rest ih =>
    obtain ⟨k', v'⟩ := p
    have hpw := sortedKeys_pairwise hs
    simp only [insertSorted]
    split
    · exfalso
      rcases List.mem_cons.mp hmem with h | h
      · injection h with h1 _
        exact absurd ‹k < k'› (by rw [h1]; exact lt_irrefl k')
      · have : k' < k := by
          have := (List.pairwise_cons.mp hpw).1 (k, w0) h
          exact this
        exact absurd ‹k < k'› (not_lt_of_gt this)
    · split
      · rename_i hlt heq
        subst heq
        have hw0 : w0 = v' := by
          rcases List.mem_cons.mp hmem with h | h
          · simpa using h
          · exfalso
            have : k < k := (List.pairwise_cons.mp hpw).1 (k, w0) h
            exact lt_irrefl k this
        subst hw0
        rw [pairsSegF_cons, pairsSegF_cons, List.append_assoc]
        exact ((List.perm_append_comm).append_left _)
      · rename_i hlt hne
        have hmem' : (k, w0) ∈ rest := by
          rcases List.mem_cons.mp hmem with h | h
          · injection h with h1 _
            exact absurd h1 hne
          · exact h
        rw [pairsSegF_cons, pairsSegF_cons, List.append_assoc]
        exact List.Perm.trans ((ih hs.tail hmem').append_left _)
          (perm_append_swap _ _ _)

theorem lookupKey_mem {α : Type} {k : String} {l : List (String × α)} {v : α}
    (h : lookupKey k l = some v) : (k, v) ∈ l := by
  induction l with
  | nil => simp [lookupKey] at h
  | cons q rest ih =>
    simp only [lookupKey] at h
    split at h
    · simp only [Option.some.injEq] at h
      subst h
      exact List.mem_cons.mpr (Or.inl (by rw [‹k = q.1›]))
    · exact List.mem_cons_of_mem _ (ih h)


theorem perm_cancel_right {α : Type} [DecidableEq α] {a b t : List α}
    (h : List.Perm (a ++ t) (b ++ t)) : List.Perm a b := by
  rw [List.perm_iff_count] at h ⊢
  intro x
  have := h x
  simp only [List.count_append] at this
  omega

/-- Core property of one `unflatten_json` insertion: if the inserted
segment path is prefix-incomparable with every leaf path of the
well-formed partial tree, the insertion succeeds and adds exactly that
leaf path. -/
theorem insertPath_spec (ss : List String) (v : String) :
    ∀ (r : List (String × Json)), ss ≠ [] → FieldsWF r →
      (∀ p ∈ pairsSegF r, ¬ p.1 <+: ss ∧ ¬ ss <+: p.1) →
      ∃ r', insertPath ss v r = some r' ∧ FieldsWF r' ∧ r' ≠ [] ∧
        List.Perm (pairsSegF r') ((ss, v) :: pairsSegF r) := by
  induction ss with
  | nil => intro r hne _ _; exact absurd rfl hne
  | cons s1 tail ih =>
    intro r _ hwf hinc
    cases tail with
    | nil =>
      have hfresh : s1 ∉ r.map Prod.fst := by
        intro hmem
        obtain ⟨⟨k0, w⟩, hw, hk0⟩ := List.mem_map.mp hmem
        simp only at hk0
        subst hk0
        rcases hwf.2 _ hw with _ | ⟨g, hgne, hgsort, hgvals⟩
        · rename_i s
          exact (hinc _ (mem_pairsSegF_of_str hw)).1 (List.prefix_refl _)
        · obtain ⟨⟨q0, s0⟩, hq0⟩ : ∃ p, p ∈ pairsSegV (Json.obj g) := by
            rcases hp : pairsSegV (Json.obj g) with _ | ⟨p, ps⟩
            · exact absurd hp (pairsSegV_ne_nil (ValWF.obj g hgne hgsort hgvals))
            · exact ⟨p, by simp⟩
          refine (hinc _ (mem_pairsSegF_of_entry hw hq0)).2 ?_
          exact ⟨q0, rfl⟩
      refine ⟨insertSorted s1 (Json.str v) r, rfl,
        fieldsWF_insertSorted hwf (ValWF.str v), insertSorted_ne_nil _ _ _, ?_⟩
      have hperm := pairsSegF_insertSorted_fresh (v := Json.str v) hfresh
      simpa [pairsSegV] using hperm
    | cons s2 rest =>
      cases hlook : lookupKey s1 r with
      | none =>
        obtain ⟨sub, hsub, hsubwf, hsubne, hsubperm⟩ :=
          ih [] (by simp) fieldsWF_nil (by simp [pairsSegF_nil])
        refine ⟨insertSorted s1 (Json.obj sub) r, ?_, ?_, insertSorted_ne_nil _ _ _, ?_⟩
        · simp [insertPath, hlook, hsub]
        · exact fieldsWF_insertSorted hwf (ValWF.obj sub hsubne hsubwf.1 hsubwf.2)
        · have hfresh : s1 ∉ r.map Prod.fst := lookupKey_eq_none.mp hlook
          have hperm := pairsSegF_insertSorted_fresh (v := Json.obj sub) hfresh
          refine hperm.trans ?_
          rw [pairsSegF_nil] at hsubperm
          have hmap := (hsubperm.map (fun q => (s1 :: q.1, q.2)))
          have : List.Perm
              ((pairsSegV (Json.obj sub)).map (fun q => (s1 :: q.1, q.2)))
              [(s1 :: s2 :: rest, v)] := by
            simpa [pairsSegF] using hmap
          exact this.append_right (pairsSegF r)
      | some w =>
        have hmem : (s1, w) ∈ r := lookupKey_mem hlook
        rcases hwf.2 _ hmem with _ | ⟨g, hgne, hgsort, hgvals⟩
        · rename_i s
          exact absurd (show [s1] <+: s1 :: s2 :: rest from ⟨s2 :: rest, rfl⟩)
            (hinc _ (mem_pairsSegF_of_str hmem)).1
        · have hside : ∀ p ∈ pairsSegF g,
              ¬ p.1 <+: (s2 :: rest) ∧ ¬ (s2 :: rest) <+: p.1 := by
            intro p hp
            have hmem' : (s1 :: p.1, p.2) ∈ pairsSegF r :=
              mem_pairsSegF_of_entry hmem (by exact hp)
            have h2 := hinc _ hmem'
            constructor
            · intro hpre
              exact h2.1 (by
                simpa [List.cons_prefix_cons] using hpre)
            · intro hpre
              exact h2.2 (by
                simpa [List.cons_prefix_cons] using hpre)
          obtain ⟨sub', hsub', hsubwf', hsubne', hsubperm'⟩ :=
            ih g (by simp) ⟨hgsort, hgvals⟩ hside
          refine ⟨insertSorted s1 (Json.obj sub') r, ?_, ?_, insertSorted_ne_nil _ _ _, ?_⟩
          · simp [insertPath, hlook, hsub']
          · exact fieldsWF_insertSorted hwf (ValWF.obj sub' hsubne' hsubwf'.1 hsubwf'.2)
          · have hrepl := @pairsSegF_insertSorted_replace s1 (Json.obj sub')
              (Json.obj g) r hwf.1 hmem
            apply perm_cancel_right
              (t := (pairsSegV (Json.obj g)).map (fun q => (s1 :: q.1, q.2)))
            refine hrepl.trans ?_
            have hmap := hsubperm'.map (fun q => (s1 :: q.1, q.2))
            have hstep : List.Perm
                ((pairsSegV (Json.obj sub')).map (fun q => (s1 :: q.1, q.2)))
                ((s1 :: s2 :: rest, v)
                  :: (pairsSegF g).map (fun q => (s1 :: q.1, q.2))) := by
              simpa [pairsSegF] using hmap
            refine (hstep.append_right (pairsSegF r)).trans ?_
            have hswap : List.Perm
                ((pairsSegF g).map (fun q => (s1 :: q.1, q.2)) ++ pairsSegF r)
                (pairsSegF r ++ (pairsSegF g).map (fun q => (s1 :: q.1, q.2))) :=
              List.perm_append_comm
            have := hswap.cons (s1 :: s2 :: rest, v)
            refine this.trans ?_
            show List.Perm _ (((s1 :: s2 :: rest, v) :: pairsSegF r)
              ++ (pairsSegV (Json.obj g)).map (fun q => (s1 :: q.1, q.2)))
            simp only [List.cons_append]
            exact List.Perm.refl _

/-- Folding the whole flat map through `insertPath` (the `unflatten_json`
loop): with pairwise prefix-incomparable keys it succeeds and produces a
tree whose leaf paths are exactly the split keys. -/
theorem unflattenGo_spec :
    ∀ (E : Entries) (r : List (String × Json)),
      FieldsWF r →
      (∀ e ∈ E, ∀ e' ∈ E, e.1 ≠ e'.1 → ¬ splitDot e.1 <+: splitDot e'.1) →
      (E.map Prod.fst).Nodup →
      (∀ e ∈ E, ∀ p ∈ pairsSegF r,
        ¬ p.1 <+: splitDot e.1 ∧ ¬ splitDot e.1 <+: p.1) →
      ∃ R, unflattenGo E r = some R ∧ FieldsWF R ∧
        List.Perm (pairsSegF R)
          ((E.map (fun e => (splitDot e.1, e.2))) ++ pairsSegF r) := by
  intro E
  induction E with
  | nil =>
    intro r hwf _ _ _
    exact ⟨r, rfl, hwf, by simp⟩
  | cons e E ih =>
    intro r hwf hpair hnodup hfree
    obtain ⟨k, v⟩ := e
    obtain ⟨r', hins, hwf', hne', hperm'⟩ :=
      insertPath_spec (splitDot k) v r (splitDot_ne_nil k) hwf
        (fun p hp => hfree (k, v) (by simp) p hp)
    have h0 : (k :: E.map Prod.fst).Nodup := by simpa using hnodup
    have hknotin : k ∉ E.map Prod.fst := (List.nodup_cons.mp h0).1
    have hfree' : ∀ e' ∈ E, ∀ p ∈ pairsSegF r',
        ¬ p.1 <+: splitDot e'.1 ∧ ¬ splitDot e'.1 <+: p.1 := by
      intro e' he' p hp
      have hp' := hperm'.mem_iff.mp hp
      rcases List.mem_cons.mp hp' with rfl | hp'
      · have hne : k ≠ e'.1 := by
          intro hk
          exact hknotin (hk ▸ List.mem_map.mpr ⟨e', he', rfl⟩)
        exact ⟨hpair (k, v) (by simp) e' (List.mem_cons_of_mem _ he') hne,
          hpair e' (List.mem_cons_of_mem _ he') (k, v) (by simp) (Ne.symm hne)⟩
      · exact hfree e' (List.mem_cons_of_mem _ he') p hp'
    obtain ⟨R, hgo, hwfR, hpermR⟩ := ih r' hwf'
      (fun a ha b hb => hpair a (List.mem_cons_of_mem _ ha) b (List.mem_cons_of_mem _ hb))
      (List.nodup_cons.mp h0).2
      hfree'
    refine ⟨R, ?_, hwfR, ?_⟩
    · simp only [unflattenGo]
      rw [hins]
      exact hgo
    · refine hpermR.trans ?_
      refine (hperm'.append_left (E.map (fun e => (splitDot e.1, e.2)))).trans ?_
      simpa using List.perm_middle

/-! ### `flatten_json` as a fold of its leaf pairs -/

/-- The (dotted-path, string) pairs emitted by `flatten_json`, in emission
order, before they are merged into the sorted map. -/
def pairs : Json → String → List (String × String)
  | Json.obj [], _ => []
  | Json.obj ((k, v) :: rest), pre =>
    pairs v (joinKey pre k) ++ pairs (Json.obj rest) pre
  | Json.str s, pre => [(pre, s)]
  | Json.num _, _ => []
  | Json.bool _, _ => []
  | Json.null, _ => []
  | Json.arr _, _ => []

/-- Folding pairs into a sorted map with `insertSorted`. -/
def foldInsert (acc : Entries) (l : List (String × String)) : Entries :=
  l.foldl (fun m e => insertSorted e.1 e.2 m) acc

theorem flatten_json_eq_foldInsert (t : Json) (pre : String) (m : Entries) :
    flatten_json t pre m = foldInsert m (pairs t pre) := by
  induction t, pre, m using flatten_json.induct <;>
    simp_all [flatten_json, pairs, foldInsert, List.foldl_append]

theorem mem_insertSorted_iff_fresh {α : Type} {k : String} {v : α}
    {l : List (String × α)} (hk : k ∉ l.map Prod.fst) {p : String × α} :
    p ∈ insertSorted k v l ↔ p = (k, v) ∨ p ∈ l := by
  rw [(insertSorted_perm_fresh v hk).mem_iff]
  simp

theorem foldInsert_spec :
    ∀ (l : List (String × String)) (acc : Entries),
      SortedKeys acc → (l.map Prod.fst).Nodup →
      (∀ k ∈ l.map Prod.fst, k ∉ acc.map Prod.fst) →
      SortedKeys (foldInsert acc l) ∧
        (∀ p, p ∈ foldInsert acc l ↔ p ∈ l ∨ p ∈ acc) := by
  intro l
  induction l with
  | nil =>
    intro acc hacc _ _
    exact ⟨hacc, by simp [foldInsert]⟩
  | cons e l ih =>
    intro acc hacc hnodup hdisj
    obtain ⟨k, v⟩ := e
    have hkfresh : k ∉ acc.map Prod.fst := hdisj k (by simp)
    have hstep : foldInsert acc ((k, v) :: l) = foldInsert (insertSorted k v acc) l := rfl
    rw [hstep]
    have hacc' : SortedKeys (insertSorted k v acc) := insertSorted_sorted hacc
    have h0 : (k :: l.map Prod.fst).Nodup := by simpa using hnodup
    have hnodup' : (l.map Prod.fst).Nodup := (List.nodup_cons.mp h0).2
    have hkl : k ∉ l.map Prod.fst := (List.nodup_cons.mp h0).1
    have hdisj' : ∀ k' ∈ l.map Prod.fst, k' ∉ (insertSorted k v acc).map Prod.fst := by
      intro k' hk' hmem
      obtain ⟨p, hp, hpk⟩ := List.mem_map.mp hmem
      rcases mem_insertSorted hp with rfl | hp
      · have hkk : k = k' := hpk
        exact hkl (by rw [hkk]; exact hk')
      · exact hdisj k' (List.mem_cons_of_mem _ hk') (hpk ▸ List.mem_map.mpr ⟨p, hp, rfl⟩)
    obtain ⟨hs, hmem⟩ := ih (insertSorted k v acc) hacc' hnodup' hdisj'
    refine ⟨hs, ?_⟩
    intro p
    rw [hmem p, mem_insertSorted_iff_fresh hkfresh]
    constructor
    · rintro (h | h | h)
      · exact Or.inl (List.mem_cons_of_mem _ h)
      · exact Or.inl (h ▸ List.mem_cons_self _ _)
      · exact Or.inr h
    · rintro (h | h)
      · rcases List.mem_cons.mp h with h | h
        · exact Or.inr (Or.inl h)
        · exact Or.inl h
      · exact Or.inr (Or.inr h)

theorem sortedKeys_keys_nodup {α : Type} {l : List (String × α)}
    (h : SortedKeys l) : (l.map Prod.fst).Nodup := by
  have hp := sortedKeys_pairwise h
  have : List.Pairwise (fun a b : String × α => a.1 ≠ b.1) l :=
    hp.imp (fun hab => ne_of_lt hab)
  exact (List.pairwise_map).mpr (by
    exact this.imp (fun hab => hab))

theorem sortedKeys_nodup {α : Type} {l : List (String × α)}
    (h : SortedKeys l) : l.Nodup :=
  (sortedKeys_keys_nodup h).of_map Prod.fst

instance {α : Type} : IsAntisymm (String × α) keyLt :=
  ⟨fun a b h1 h2 => absurd (lt_trans h1 h2) (lt_irrefl _)⟩

theorem foldInsert_perm {l : List (String × String)}
    (hnodup : (l.map Prod.fst).Nodup) :
    List.Perm (foldInsert [] l) l ∧ SortedKeys (foldInsert [] l) := by
  obtain ⟨hs, hmem⟩ := foldInsert_spec l [] (by simp [SortedKeys]) hnodup (by simp)
  refine ⟨?_, hs⟩
  apply List.perm_of_nodup_nodup_toFinset_eq (sortedKeys_nodup hs) (hnodup.of_map Prod.fst)
  ext p
  simp only [List.mem_toFinset]
  rw [hmem p]
  simp

theorem foldInsert_eq_of_sorted {l l0 : List (String × String)}
    (hnodup : (l.map Prod.fst).Nodup) (hperm : List.Perm l l0)
    (hsort0 : SortedKeys l0) : foldInsert [] l = l0 := by
  obtain ⟨hp, hs⟩ := foldInsert_perm hnodup
  exact List.eq_of_perm_of_sorted (hp.trans hperm)
    (sortedKeys_pairwise hs) (sortedKeys_pairwise hsort0)

/-! ### Dotted paths of `flatten_json` vs segment paths -/

/-- The dotted path that `flatten_json` gives a leaf at relative segment
path `q` under accumulated path `pre`. -/
def glue (pre : String) : List String → String
  | [] => pre
  | s :: ss => if pre = "" then joinDot (s :: ss) else pre ++ "." ++ joinDot (s :: ss)

/-- At the root (empty path prefix), no object field may have the empty
key: `flatten_json` would restart the path there (`prefix.is_empty()`). -/
def RootKeysOK : Json → Prop
  | Json.obj g => ∀ e ∈ g, ∀ g', e.2 = Json.obj g' → e.1 ≠ ""
  | _ => True

theorem string_append_ne_left {pre s : String} (h : pre ≠ "") :
    pre ++ s ≠ "" := by
  intro hc
  apply h
  apply String.ext
  have hdata := congrArg String.data hc
  rw [string_data_append] at hdata
  have h2 : pre.data = [] := (List.append_eq_nil.mp (by simpa using hdata)).1
  simpa using h2

theorem joinKey_ne_empty {pre : String} (k : String) (h : pre ≠ "") :
    joinKey pre k ≠ "" := by
  rw [joinKey, if_neg h]
  exact string_append_ne_left (string_append_ne_left h)

theorem string_append_assoc (a b c : String) : (a ++ b) ++ c = a ++ (b ++ c) := by
  apply String.ext
  simp only [string_data_append]
  exact List.append_assoc _ _ _

theorem pairsSegV_obj_of_path {v : Json} {q : List String} {s : String}
    (h : (q, s) ∈ pairsSegV v) (hq : q ≠ []) : ∃ g, v = Json.obj g := by
  cases v with
  | str s0 =>
    simp only [pairsSegV, List.mem_singleton] at h
    exact absurd (congrArg Prod.fst h) (by simpa using hq)
  | obj g => exact ⟨g, rfl⟩
  | num n => simp [pairsSegV] at h
  | bool b => simp [pairsSegV] at h
  | null => simp [pairsSegV] at h
  | arr l => simp [pairsSegV] at h

theorem glue_cons {pre k : String} {q : List String} {v : Json} {s : String}
    (hqv : (q, s) ∈ pairsSegV v)
    (hcond : joinKey pre k = "" → ∀ g, v ≠ Json.obj g) :
    glue pre (k :: q) = glue (joinKey pre k) q := by
  cases q with
  | nil =>
    by_cases hpre : pre = ""
    · subst hpre
      simp [glue, joinDot, joinKey]
    · simp [glue, joinDot, joinKey, hpre]
  | cons s1 ss =>
    have hjk : joinKey pre k ≠ "" := by
      intro hjk
      obtain ⟨g, rfl⟩ := pairsSegV_obj_of_path hqv (by simp)
      exact hcond hjk g rfl
    simp only [glue]
    by_cases hpre : pre = ""
    · rw [if_pos hpre, if_neg hjk]
      subst hpre
      rw [show joinKey "" k = k from by simp [joinKey]]
      rfl
    · rw [if_neg hpre, if_neg hjk, joinKey, if_neg hpre]
      rw [show joinDot (k :: s1 :: ss) = k ++ "." ++ joinDot (s1 :: ss) from rfl]
      rw [string_append_assoc (pre ++ "." ++ k) "." (joinDot (s1 :: ss))]
      rw [string_append_assoc (pre ++ ".") k ("." ++ joinDot (s1 :: ss))]
      rw [string_append_assoc k "." (joinDot (s1 :: ss))]

/-- `flatten_json`'s emitted dotted paths are the `glue`d segment paths;
requires that no root-level object field has the empty key when the
accumulated path prefix is empty. -/
theorem pairs_eq_glue :
    ∀ (t : Json) (pre : String), (pre = "" → RootKeysOK t) →
      pairs t pre = (pairsSegV t).map (fun q => (glue pre q.1, q.2)) := by
  intro t pre
  induction t, pre using pairs.induct with
  | case1 pre => intro _; simp [pairs, pairsSegV]
  | case2 k v rest pre ih1 ih2 =>
    intro hroot
    have hrest : pairs (Json.obj rest) pre
        = (pairsSegV (Json.obj rest)).map (fun q => (glue pre q.1, q.2)) := by
      apply ih2
      intro hpre
      have := hroot hpre
      intro e he g' hg'
      exact this e (List.mem_cons_of_mem _ he) g' hg'
    have hcond : joinKey pre k = "" → ∀ g, v ≠ Json.obj g := by
      intro hjk g hvg
      by_cases hpre : pre = ""
      · have hk : k = "" := by
          rw [joinKey, if_pos hpre] at hjk
          exact hjk
        exact (hroot hpre (k, v) (by simp) g hvg) hk
      · exact joinKey_ne_empty k hpre hjk
    have hv : pairs v (joinKey pre k)
        = (pairsSegV v).map (fun q => (glue (joinKey pre k) q.1, q.2)) := by
      apply ih1
      intro hjk
      cases v with
      | str s => trivial
      | num n => trivial
      | bool b => trivial
      | null => trivial
      | arr l => trivial
      | obj g => exact absurd rfl (hcond hjk g)
    have hunfold : pairs (Json.obj ((k, v) :: rest)) pre
        = pairs v (joinKey pre k) ++ pairs (Json.obj rest) pre := by
      simp [pairs]
    have hunfold2 : pairsSegV (Json.obj ((k, v) :: rest))
        = (pairsSegV v).map (fun q => (k :: q.1, q.2)) ++ pairsSegV (Json.obj rest) := by
      simp [pairsSegV]
    rw [hunfold, hv, hrest, hunfold2, List.map_append, List.map_map]
    congr 1
    apply List.map_congr_left
    intro q hq
    simp only [Function.comp_apply]
    rw [glue_cons hq hcond]
  | case3 s pre => intro _; simp [pairs, pairsSegV, glue]
  | case4 n pre => intro _; simp [pairs, pairsSegV]
  | case5 b pre => intro _; simp [pairs, pairsSegV]
  | case6 pre => intro _; simp [pairs, pairsSegV]
  | case7 l pre => intro _; simp [pairs, pairsSegV]

/-! ### Round-trip: flatten after unflatten -/

/-- Helper: `glue "" q = joinDot q` on nonempty paths, as a map identity
over field paths. -/
theorem map_glue_empty {P : List (List String × String)}
    (hne : ∀ p ∈ P, p.1 ≠ []) :
    P.map (fun q => (glue "" q.1, q.2)) = P.map (fun q => (joinDot q.1, q.2)) := by
  apply List.map_congr_left
  intro q hq
  rcases hq1 : q.1 with _ | ⟨s, ss⟩
  · exact absurd hq1 (hne q hq)
  · simp [glue]

/-- The flat-map round-trip of the source: rebuilding the tree with
`unflatten_json` and flattening it again restores the flat map, provided
keys are segmentwise prefix-incomparable and no key starts with `'.'`. -/
theorem roundtrip_flat (m : Entries)
    (hsort : SortedKeys m)
    (hpf : ∀ e ∈ m, ∀ e' ∈ m, e.1 ≠ e'.1 → ¬ splitDot e.1 <+: splitDot e'.1)
    (hdot : ∀ e ∈ m, e.1.data.head? ≠ some '.') :
    ∃ R, unflatten_json m = some (Json.obj R)
      ∧ flatten_json (Json.obj R) "" [] = m := by
  have hnodup : (m.map Prod.fst).Nodup := sortedKeys_keys_nodup hsort
  obtain ⟨R, hgo, hwfR, hperm⟩ :=
    unflattenGo_spec m [] fieldsWF_nil hpf hnodup
      (by intro e _ p hp; rw [pairsSegF_nil] at hp; exact absurd hp (List.not_mem_nil p))
  have hperm' : List.Perm (pairsSegF R) (m.map (fun e => (splitDot e.1, e.2))) := by
    rw [pairsSegF_nil, List.append_nil] at hperm
    exact hperm
  refine ⟨R, ?_, ?_⟩
  · rw [unflatten_json, hgo]
    rfl
  · have hrootOK : RootKeysOK (Json.obj R) := by
      intro e he g' hg' hke
      obtain ⟨k0, v0⟩ := e
      simp only at hg' hke
      subst hg'
      subst hke
      have hvwf : ValWF (Json.obj g') := hwfR.2 _ he
      rcases hvwf with _ | ⟨_, hgne', hgsort', hgvals'⟩
      obtain ⟨⟨q0, s0⟩, hq0⟩ : ∃ p, p ∈ pairsSegV (Json.obj g') := by
        rcases hp : pairsSegV (Json.obj g') with _ | ⟨p, ps⟩
        · exact absurd hp (pairsSegV_ne_nil (ValWF.obj g' hgne' hgsort' hgvals'))
        · exact ⟨p, by simp⟩
      have hq0ne : q0 ≠ [] := pairsSegF_path_ne_nil (g := g') hq0
      have hmemR : ("" :: q0, s0) ∈ pairsSegF R :=
        mem_pairsSegF_of_entry he hq0
      have hmemM := hperm'.mem_iff.mp hmemR
      obtain ⟨e', he', hee'⟩ := List.mem_map.mp hmemM
      have hsplit : splitDot e'.1 = "" :: q0 := congrArg Prod.fst hee'
      exact hdot e' he' (splitDot_head_dot hsplit hq0ne)
    have hpairs : pairs (Json.obj R) ""
        = (pairsSegF R).map (fun q => (joinDot q.1, q.2)) := by
      rw [pairs_eq_glue (Json.obj R) "" (fun _ => hrootOK)]
      exact map_glue_empty (fun p hp => pairsSegF_path_ne_nil
        (show (p.1, p.2) ∈ pairsSegF R from hp))
    have hperm2 : List.Perm (pairs (Json.obj R) "") m := by
      rw [hpairs]
      refine (hperm'.map _).trans ?_
      rw [List.map_map]
      have hid : m.map ((fun q => (joinDot q.1, q.2))
          ∘ (fun e : String × String => (splitDot e.1, e.2))) = m.map id := by
        apply List.map_congr_left
        intro e _
        simp only [Function.comp_apply, id_eq]
        rw [joinDot_splitDot]
      rw [hid, List.map_id]
    have hkeys : ((pairs (Json.obj R) "").map Prod.fst).Nodup :=
      ((hperm2.map Prod.fst).nodup_iff).mpr hnodup
    rw [flatten_json_eq_foldInsert]
    exact foldInsert_eq_of_sorted hkeys hperm2 hsort

/-! ### Leaf paths of a well-formed tree: nodup and antichain -/

theorem sortedKeys_head_notin {k : String} {v : Json}
    {rest : List (String × Json)} (hsort : SortedKeys ((k, v) :: rest)) :
    k ∉ rest.map Prod.fst := by
  have hp := sortedKeys_pairwise hsort
  intro hmem
  obtain ⟨p0, hp0, hp0k⟩ := List.mem_map.mp hmem
  have h2 : k < p0.1 := (List.pairwise_cons.mp hp).1 p0 hp0
  rw [hp0k] at h2
  exact lt_irrefl k h2

theorem pairsSegF_rest_head_ne {k : String} {rest : List (String × Json)}
    (hknotin : k ∉ rest.map Prod.fst) :
    ∀ c ∈ pairsSegF rest, c.1.head? ≠ some k := by
  intro c hc hck
  obtain ⟨kv, hkv, hkvh⟩ := pairsSegF_head_key
    (show (c.1, c.2) ∈ pairsSegF rest from hc)
  rw [hck] at hkvh
  have hkk : k = kv.1 := by injection hkvh
  apply hknotin
  rw [hkk]
  exact List.mem_map.mpr ⟨kv, hkv, rfl⟩

theorem fields_paths_nodup_aux :
    ∀ (g : List (String × Json)), SortedKeys g →
      (∀ p ∈ g, ((pairsSegV p.2).map Prod.fst).Nodup) →
      ((pairsSegF g).map Prod.fst).Nodup := by
  intro g
  induction g with
  | nil => intro _ _; simp [pairsSegF_nil]
  | cons p rest ih =>
    intro hsort hvals
    obtain ⟨k, v⟩ := p
    rw [pairsSegF_cons, List.map_append, List.nodup_append]
    have hknotin : k ∉ rest.map Prod.fst := sortedKeys_head_notin hsort
    refine ⟨?_, ih hsort.tail (fun p hp => hvals p (List.mem_cons_of_mem _ hp)), ?_⟩
    · rw [List.map_map]
      have hv := hvals (k, v) (by simp)
      have hcomp : (Prod.fst ∘ fun q : List String × String => (k :: q.1, q.2))
          = (fun x => k :: x) ∘ Prod.fst := rfl
      rw [hcomp, ← List.map_map]
      exact hv.map_on (by intro x hx y hy h; injection h)
    · intro a ha hb
      obtain ⟨q, hq, hqa⟩ := List.mem_map.mp ha
      obtain ⟨q0, hq0, hq02⟩ := List.mem_map.mp hq
      have haK : a.head? = some k := by
        rw [← hqa, ← hq02]
        rfl
      obtain ⟨q', hq', hqb⟩ := List.mem_map.mp hb
      obtain ⟨kv, hkv, hhead⟩ := pairsSegF_head_key
        (show (q'.1, q'.2) ∈ pairsSegF rest from hq')
      rw [hqb] at hhead
      exact pairsSegF_rest_head_ne hknotin q' hq' (by rw [hqb]; exact haK)

theorem pairsSegV_paths_nodup {v : Json} (h : ValWF v) :
    ((pairsSegV v).map Prod.fst).Nodup := by
  induction h with
  | str s => simp [pairsSegV]
  | obj g hne hsort hvals ih =>
    exact fields_paths_nodup_aux g hsort ih

theorem fields_antichain_aux :
    ∀ (g : List (String × Json)), SortedKeys g →
      (∀ p ∈ g, ∀ a ∈ pairsSegV p.2, ∀ b ∈ pairsSegV p.2,
        a.1 ≠ b.1 → ¬ a.1 <+: b.1) →
      ∀ a ∈ pairsSegF g, ∀ b ∈ pairsSegF g, a.1 ≠ b.1 → ¬ a.1 <+: b.1 := by
  intro g
  induction g with
  | nil =>
    intro _ _ a ha
    rw [pairsSegF_nil] at ha
    exact absurd ha (List.not_mem_nil a)
  | cons p rest ih =>
    intro hsort hvals a ha b hb hne hpre
    obtain ⟨k, v⟩ := p
    rw [pairsSegF_cons] at ha hb
    have hknotin : k ∉ rest.map Prod.fst := sortedKeys_head_notin hsort
    have hrest := pairsSegF_rest_head_ne hknotin
    rcases List.mem_append.mp ha with ha' | ha' <;>
      rcases List.mem_append.mp hb with hb' | hb'
    · obtain ⟨qa, hqa, hqa2⟩ := List.mem_map.mp ha'
      obtain ⟨qb, hqb, hqb2⟩ := List.mem_map.mp hb'
      have h1 : a.1 = k :: qa.1 := by rw [← hqa2]
      have h2 : b.1 = k :: qb.1 := by rw [← hqb2]
      rw [h1, h2] at hpre hne
      rw [List.cons_prefix_cons] at hpre
      exact hvals (k, v) (by simp) qa hqa qb hqb
        (fun hq => hne (by rw [hq])) hpre.2
    · obtain ⟨qa, hqa, hqa2⟩ := List.mem_map.mp ha'
      have h1 : a.1 = k :: qa.1 := by rw [← hqa2]
      obtain ⟨t, ht⟩ := hpre
      have hbK : b.1.head? = some k := by
        rw [← ht, h1]
        rfl
      exact hrest b hb' hbK
    · obtain ⟨qb, hqb, hqb2⟩ := List.mem_map.mp hb'
      have h2 : b.1 = k :: qb.1 := by rw [← hqb2]
      have hane : a.1 ≠ [] := pairsSegF_path_ne_nil
        (show (a.1, a.2) ∈ pairsSegF rest from ha')
      rcases hA : a.1 with _ | ⟨a0, arest⟩
      · exact absurd hA hane
      · obtain ⟨t, ht⟩ := hpre
        rw [hA, h2] at ht
        simp only [List.cons_append] at ht
        have h01 : a0 = k := by injection ht
        exact hrest a ha' (by rw [hA, h01]; rfl)
    · exact ih hsort.tail (fun p hp => hvals p (List.mem_cons_of_mem _ hp))
        a ha' b hb' hne hpre

theorem pairsSegV_antichain {v : Json} (h : ValWF v) :
    ∀ a ∈ pairsSegV v, ∀ b ∈ pairsSegV v, a.1 ≠ b.1 → ¬ a.1 <+: b.1 := by
  induction h with
  | str s =>
    intro a ha b hb hne
    simp only [pairsSegV, List.mem_singleton] at ha hb
    exact absurd (by rw [ha, hb]) hne
  | obj g hne hsort hvals ih =>
    exact fields_antichain_aux g hsort ih

/-! ### Extensionality: a well-formed tree is determined by its leaf paths -/

theorem sorted_head_le {k : String} {v : Json} {rest : List (String × Json)}
    (hsort : SortedKeys ((k, v) :: rest)) :
    ∀ kv ∈ (k, v) :: rest, k ≤ kv.1 := by
  intro kv hkv
  rcases List.mem_cons.mp hkv with rfl | hkv
  · exact le_refl _
  · exact le_of_lt ((List.pairwise_cons.mp (sortedKeys_pairwise hsort)).1 kv hkv)

theorem perm_of_map_perm {α β : Type} [DecidableEq α] [DecidableEq β] {f : α → β}
    (hinj : Function.Injective f) {a b : List α}
    (h : List.Perm (a.map f) (b.map f)) : List.Perm a b := by
  rw [List.perm_iff_count] at h ⊢
  intro x
  have hx := h (f x)
  rwa [List.count_map_of_injective _ f hinj,
    List.count_map_of_injective _ f hinj] at hx

theorem mem_keys_of_path_perm {r1 r2 : List (String × Json)}
    (hwf1 : FieldsWF r1)
    (hperm : List.Perm (pairsSegF r1) (pairsSegF r2))
    {k : String} {v : Json} (hmem : (k, v) ∈ r1) :
    ∃ kv ∈ r2, kv.1 = k := by
  obtain ⟨q, s, hq, hhead⟩ := pairsSegF_key_path hwf1.2 hmem
  have hq2 : (q, s) ∈ pairsSegF r2 := hperm.mem_iff.mp hq
  obtain ⟨kv, hkv, hh2⟩ := pairsSegF_head_key hq2
  refine ⟨kv, hkv, ?_⟩
  rw [hhead] at hh2
  injection hh2 with h
  exact h.symm

theorem fields_ext_aux :
    ∀ (n : Nat) (r1 r2 : List (String × Json)), sizeOf r1 ≤ n →
      FieldsWF r1 → FieldsWF r2 →
      List.Perm (pairsSegF r1) (pairsSegF r2) → r1 = r2 := by
  intro n
  induction n using Nat.strong_induction_on with
  | _ n ih =>
    intro r1 r2 hsize hwf1 hwf2 hperm
    cases r1 with
    | nil =>
      cases r2 with
      | nil => rfl
      | cons p2 rest2 =>
        exfalso
        rw [pairsSegF_nil] at hperm
        exact pairsSegF_ne_nil hwf2 (by simp) (hperm.symm.eq_nil)
    | cons p1 rest1 =>
      cases r2 with
      | nil =>
        exfalso
        rw [pairsSegF_nil] at hperm
        exact pairsSegF_ne_nil hwf1 (by simp) (hperm.eq_nil)
      | cons p2 rest2 =>
        obtain ⟨k1, v1⟩ := p1
        obtain ⟨k2, v2⟩ := p2
        have hk12 : k1 = k2 := by
          obtain ⟨kv2, hkv2, hkv2k⟩ := mem_keys_of_path_perm hwf1 hperm
            (show (k1, v1) ∈ (k1, v1) :: rest1 by simp)
          obtain ⟨kv1, hkv1, hkv1k⟩ := mem_keys_of_path_perm hwf2 hperm.symm
            (show (k2, v2) ∈ (k2, v2) :: rest2 by simp)
          have h1 : k2 ≤ k1 := by
            have := sorted_head_le hwf2.1 kv2 hkv2
            rwa [hkv2k] at this
          have h2 : k1 ≤ k2 := by
            have := sorted_head_le hwf1.1 kv1 hkv1
            rwa [hkv1k] at this
          exact le_antisymm h2 h1
        subst hk12
        have hknotin1 : k1 ∉ rest1.map Prod.fst := sortedKeys_head_notin hwf1.1
        have hknotin2 : k1 ∉ rest2.map Prod.fst := sortedKeys_head_notin hwf2.1
        have hfilter1 : (pairsSegF ((k1, v1) :: rest1)).filter
            (fun p => decide (p.1.head? = some k1))
            = (pairsSegV v1).map (fun q => (k1 :: q.1, q.2)) := by
          rw [pairsSegF_cons, List.filter_append]
          have hA : ((pairsSegV v1).map (fun q => (k1 :: q.1, q.2))).filter
              (fun p => decide (p.1.head? = some k1))
              = (pairsSegV v1).map (fun q => (k1 :: q.1, q.2)) := by
            apply List.filter_eq_self.mpr
            intro a ha
            obtain ⟨q, hq, hq2⟩ := List.mem_map.mp ha
            rw [← hq2]
            simp
          have hB : (pairsSegF rest1).filter
              (fun p => decide (p.1.head? = some k1)) = [] := by
            apply List.filter_eq_nil_iff.mpr
            intro a ha
            have := pairsSegF_rest_head_ne hknotin1 a ha
            simpa using this
          rw [hA, hB, List.append_nil]
        have hfilter2 : (pairsSegF ((k1, v2) :: rest2)).filter
            (fun p => decide (p.1.head? = some k1))
            = (pairsSegV v2).map (fun q => (k1 :: q.1, q.2)) := by
          rw [pairsSegF_cons, List.filter_append]
          have hA : ((pairsSegV v2).map (fun q => (k1 :: q.1, q.2))).filter
              (fun p => decide (p.1.head? = some k1))
              = (pairsSegV v2).map (fun q => (k1 :: q.1, q.2)) := by
            apply List.filter_eq_self.mpr
            intro a ha
            obtain ⟨q, hq, hq2⟩ := List.mem_map.mp ha
            rw [← hq2]
            simp
          have hB : (pairsSegF rest2).filter
              (fun p => decide (p.1.head? = some k1)) = [] := by
            apply List.filter_eq_nil_iff.mpr
            intro a ha
            have := pairsSegF_rest_head_ne hknotin2 a ha
            simpa using this
          rw [hA, hB, List.append_nil]
        have hnotfilter1 : (pairsSegF ((k1, v1) :: rest1)).filter
            (fun p => ! decide (p.1.head? = some k1)) = pairsSegF rest1 := by
          rw [pairsSegF_cons, List.filter_append]
          have hA : ((pairsSegV v1).map (fun q => (k1 :: q.1, q.2))).filter
              (fun p => ! decide (p.1.head? = some k1)) = [] := by
            apply List.filter_eq_nil_iff.mpr
            intro a ha
            obtain ⟨q, hq, hq2⟩ := List.mem_map.mp ha
            rw [← hq2]
            simp
          have hB : (pairsSegF rest1).filter
              (fun p => ! decide (p.1.head? = some k1)) = pairsSegF rest1 := by
            apply List.filter_eq_self.mpr
            intro a ha
            have := pairsSegF_rest_head_ne hknotin1 a ha
            simpa using this
          rw [hA, hB, List.nil_append]
        have hnotfilter2 : (pairsSegF ((k1, v2) :: rest2)).filter
            (fun p => ! decide (p.1.head? = some k1)) = pairsSegF rest2 := by
          rw [pairsSegF_cons, List.filter_append]
          have hA : ((pairsSegV v2).map (fun q => (k1 :: q.1, q.2))).filter
              (fun p => ! decide (p.1.head? = some k1)) = [] := by
            apply List.filter_eq_nil_iff.mpr
            intro a ha
            obtain ⟨q, hq, hq2⟩ := List.mem_map.mp ha
            rw [← hq2]
            simp
          have hB : (pairsSegF rest2).filter
              (fun p => ! decide (p.1.head? = some k1)) = pairsSegF rest2 := by
            apply List.filter_eq_self.mpr
            intro a ha
            have := pairsSegF_rest_head_ne hknotin2 a ha
            simpa using this
          rw [hA, hB, List.nil_append]
        have hpermv : List.Perm (pairsSegV v1) (pairsSegV v2) := by
          have h := hperm.filter (fun p => decide (p.1.head? = some k1))
          rw [hfilter1, hfilter2] at h
          exact perm_of_map_perm
            (f := fun q : List String × String => (k1 :: q.1, q.2))
            (by
              intro x y hxy
              obtain ⟨x1, x2⟩ := x
              obtain ⟨y1, y2⟩ := y
              simp only [Prod.mk.injEq, List.cons.injEq] at hxy
              exact Prod.ext hxy.1.2 hxy.2) h
        have hpermrest : List.Perm (pairsSegF rest1) (pairsSegF rest2) := by
          have h := hperm.filter (fun p => ! decide (p.1.head? = some k1))
          rwa [hnotfilter1, hnotfilter2] at h
        have hv12 : v1 = v2 := by
          have hv1 : ValWF v1 := hwf1.2 (k1, v1) (by simp)
          have hv2 : ValWF v2 := hwf2.2 (k1, v2) (by simp)
          rcases hv1 with _ | ⟨g1, hg1ne, hg1sort, hg1vals⟩ <;>
            rcases hv2 with _ | ⟨g2, hg2ne, hg2sort, hg2vals⟩
          · rename_i s1 s2
            have hmem : (([] : List String), s2) ∈ pairsSegV (Json.str s1) := by
              apply hpermv.mem_iff.mpr
              simp [pairsSegV]
            simp only [pairsSegV, List.mem_singleton, Prod.mk.injEq, true_and] at hmem
            rw [hmem]
          · rename_i s1
            exfalso
            have : (([] : List String), s1) ∈ pairsSegF g2 := by
              apply hpermv.mem_iff.mp
              simp [pairsSegV]
            exact pairsSegF_path_ne_nil this rfl
          · rename_i s2
            exfalso
            have : (([] : List String), s2) ∈ pairsSegF g1 := by
              apply hpermv.mem_iff.mpr
              simp [pairsSegV]
            exact pairsSegF_path_ne_nil this rfl
          · have hsz : sizeOf g1 < n := by
              have h1 : sizeOf g1 < sizeOf ((k1, Json.obj g1) :: rest1) := by
                simp
                try omega
              omega
            have := ih (sizeOf g1) hsz g1 g2 (le_refl _)
              ⟨hg1sort, hg1vals⟩ ⟨hg2sort, hg2vals⟩ hpermv
            rw [this]
        have hrest12 : rest1 = rest2 := by
          have hsz : sizeOf rest1 < n := by
            have h1 : sizeOf rest1 < sizeOf ((k1, v1) :: rest1) := by
              simp
              try omega
            omega
          exact ih (sizeOf rest1) hsz rest1 rest2 (le_refl _)
            (fieldsWF_tail hwf1) (fieldsWF_tail hwf2) hpermrest
        rw [hv12, hrest12]

/-- Two well-formed field lists with the same leaf paths (up to
permutation) are equal. -/
theorem fields_ext {r1 r2 : List (String × Json)}
    (hwf1 : FieldsWF r1) (hwf2 : FieldsWF r2)
    (hperm : List.Perm (pairsSegF r1) (pairsSegF r2)) : r1 = r2 :=
  fields_ext_aux (sizeOf r1) r1 r2 (le_refl _) hwf1 hwf2 hperm

/-! ### Round-trip: unflatten after flatten, for clean trees -/

/-- A key that survives the dotted-path encoding: nonempty and free of
the `'.'` separator. -/
def GoodKey (k : String) : Prop := k ≠ "" ∧ '.' ∉ k.data

/-- Trees that the dotted-path encoding can represent faithfully: string
leaves and sorted, nonempty objects whose keys are `GoodKey`s. -/
inductive CleanV : Json → Prop where
  | str (s : String) : CleanV (Json.str s)
  | obj (g : List (String × Json)) (hne : g ≠ []) (hsort : SortedKeys g)
      (hkeys : ∀ p ∈ g, GoodKey p.1) (hvals : ∀ p ∈ g, CleanV p.2) :
      CleanV (Json.obj g)

/-- Cleanness for the root field list (the root object may be empty). -/
def CleanFields (g : List (String × Json)) : Prop :=
  SortedKeys g ∧ (∀ p ∈ g, GoodKey p.1) ∧ ∀ p ∈ g, CleanV p.2

/-- Cleanness for a whole document: the root must be an object. -/
def CleanRoot : Json → Prop
  | Json.obj g => CleanFields g
  | _ => False

theorem cleanV_valWF {v : Json} (h : CleanV v) : ValWF v := by
  induction h with
  | str s => exact ValWF.str s
  | obj g hne hsort hkeys hvals ih => exact ValWF.obj g hne hsort ih

theorem cleanFields_fieldsWF {g : List (String × Json)} (h : CleanFields g) :
    FieldsWF g :=
  ⟨h.1, fun p hp => cleanV_valWF (h.2.2 p hp)⟩

theorem fields_paths_good_aux :
    ∀ (g : List (String × Json)), (∀ p ∈ g, GoodKey p.1) →
      (∀ p ∈ g, ∀ a ∈ pairsSegV p.2, ∀ seg ∈ a.1, GoodKey seg) →
      ∀ a ∈ pairsSegF g, ∀ seg ∈ a.1, GoodKey seg := by
  intro g
  induction g with
  | nil =>
    intro _ _ a ha
    rw [pairsSegF_nil] at ha
    exact absurd ha (List.not_mem_nil a)
  | cons p rest ih =>
    intro hkeys hvals a ha s0 hs0
    obtain ⟨k, v⟩ := p
    rw [pairsSegF_cons] at ha
    rcases List.mem_append.mp ha with ha' | ha'
    · obtain ⟨q, hq, hq2⟩ := List.mem_map.mp ha'
      have haq : a.1 = k :: q.1 := by rw [← hq2]
      rw [haq] at hs0
      rcases List.mem_cons.mp hs0 with rfl | hs0
      · exact hkeys (s0, v) (by simp)
      · exact hvals (k, v) (by simp) q hq s0 hs0
    · exact ih (fun p hp => hkeys p (List.mem_cons_of_mem _ hp))
        (fun p hp => hvals p (List.mem_cons_of_mem _ hp)) a ha' s0 hs0

theorem cleanV_paths_good {v : Json} (h : CleanV v) :
    ∀ a ∈ pairsSegV v, ∀ seg ∈ a.1, GoodKey seg := by
  induction h with
  | str s =>
    intro a ha seg hseg
    simp only [pairsSegV, List.mem_singleton] at ha
    rw [ha] at hseg
    exact absurd hseg (List.not_mem_nil seg)
  | obj g hne hsort hkeys hvals ih =>
    exact fields_paths_good_aux g hkeys ih

/-- The tree-level round-trip of the source: flattening a clean tree and
rebuilding it with `unflatten_json` restores the tree. -/
theorem roundtrip_tree {fields : List (String × Json)}
    (hclean : CleanFields fields) :
    unflatten_json (flatten_json (Json.obj fields) "" []) = some (Json.obj fields) := by
  obtain ⟨hsort, hgoodk, hvclean⟩ := hclean
  have hwf : FieldsWF fields := cleanFields_fieldsWF ⟨hsort, hgoodk, hvclean⟩
  have hgood : ∀ a ∈ pairsSegF fields, ∀ seg ∈ a.1, GoodKey seg :=
    fields_paths_good_aux fields hgoodk
      (fun p hp => cleanV_paths_good (hvclean p hp))
  have hpnodup : ((pairsSegF fields).map Prod.fst).Nodup :=
    fields_paths_nodup_aux fields hsort
      (fun p hp => pairsSegV_paths_nodup (hwf.2 p hp))
  have hanti := fields_antichain_aux fields hsort
    (fun p hp => pairsSegV_antichain (hwf.2 p hp))
  have hrootOK : RootKeysOK (Json.obj fields) := by
    intro e he g' _ hke
    exact (hgoodk e he).1 hke
  have hpairs : pairs (Json.obj fields) ""
      = (pairsSegF fields).map (fun q => (joinDot q.1, q.2)) := by
    rw [pairs_eq_glue (Json.obj fields) "" (fun _ => hrootOK)]
    exact map_glue_empty (fun p hp => pairsSegF_path_ne_nil
      (show (p.1, p.2) ∈ pairsSegF fields from hp))
  have hsplitjoin : ∀ a ∈ pairsSegF fields, splitDot (joinDot a.1) = a.1 := by
    intro a ha
    apply splitDot_joinDot
    · exact pairsSegF_path_ne_nil (show (a.1, a.2) ∈ pairsSegF fields from ha)
    · intro s hs
      exact (hgood a ha s hs).2
  have hkeysnodup : ((pairs (Json.obj fields) "").map Prod.fst).Nodup := by
    rw [hpairs, List.map_map]
    have hcomp : (Prod.fst ∘ fun q : List String × String => (joinDot q.1, q.2))
        = joinDot ∘ Prod.fst := rfl
    rw [hcomp, ← List.map_map]
    apply hpnodup.map_on
    intro x hx y hy hxy
    obtain ⟨px, hpx, hpx2⟩ := List.mem_map.mp hx
    obtain ⟨py, hpy, hpy2⟩ := List.mem_map.mp hy
    have h1 : splitDot (joinDot x) = x := by
      rw [← hpx2]
      exact hsplitjoin px hpx
    have h2 : splitDot (joinDot y) = y := by
      rw [← hpy2]
      exact hsplitjoin py hpy
    rw [← h1, ← h2, hxy]
  have hE : flatten_json (Json.obj fields) "" []
      = foldInsert [] (pairs (Json.obj fields) "") :=
    flatten_json_eq_foldInsert _ _ _
  have hpermE : List.Perm (foldInsert [] (pairs (Json.obj fields) ""))
      (pairs (Json.obj fields) "") := (foldInsert_perm hkeysnodup).1
  set E := foldInsert [] (pairs (Json.obj fields) "") with hEdef
  have hmemE : ∀ e ∈ E, ∃ q ∈ pairsSegF fields,
      e = (joinDot q.1, q.2) := by
    intro e he
    have : e ∈ pairs (Json.obj fields) "" := hpermE.mem_iff.mp he
    rw [hpairs] at this
    obtain ⟨q, hq, hq2⟩ := List.mem_map.mp this
    exact ⟨q, hq, hq2.symm⟩
  have hEpairwise : ∀ e ∈ E, ∀ e' ∈ E, e.1 ≠ e'.1 →
      ¬ splitDot e.1 <+: splitDot e'.1 := by
    intro e he e' he' hne
    obtain ⟨q, hq, hq2⟩ := hmemE e he
    obtain ⟨q', hq', hq'2⟩ := hmemE e' he'
    have hsq : splitDot e.1 = q.1 := by
      rw [hq2]
      exact hsplitjoin q hq
    have hsq' : splitDot e'.1 = q'.1 := by
      rw [hq'2]
      exact hsplitjoin q' hq'
    rw [hsq, hsq']
    apply hanti q hq q' hq'
    intro hqq
    apply hne
    rw [hq2, hq'2, hqq]
  have hEnodup : (E.map Prod.fst).Nodup :=
    ((hpermE.map Prod.fst).nodup_iff).mpr hkeysnodup
  obtain ⟨R, hgo, hwfR, hpermR⟩ := unflattenGo_spec E [] fieldsWF_nil
    hEpairwise hEnodup
    (by intro e _ p hp; rw [pairsSegF_nil] at hp; exact absurd hp (List.not_mem_nil p))
  have hmapE : List.Perm (E.map (fun e => (splitDot e.1, e.2)))
      (pairsSegF fields) := by
    have h1 : List.Perm (E.map (fun e => (splitDot e.1, e.2)))
        ((pairs (Json.obj fields) "").map (fun e => (splitDot e.1, e.2))) :=
      hpermE.map _
    refine h1.trans ?_
    rw [hpairs, List.map_map]
    have : (pairsSegF fields).map ((fun e : String × String => (splitDot e.1, e.2))
        ∘ fun q => (joinDot q.1, q.2)) = (pairsSegF fields).map id := by
      apply List.map_congr_left
      intro q hq
      simp only [Function.comp_apply, id_eq]
      rw [hsplitjoin q hq]
    rw [this, List.map_id]
  have hpermFinal : List.Perm (pairsSegF R) (pairsSegF fields) := by
    refine hpermR.trans ?_
    rw [pairsSegF_nil, List.append_nil]
    exact hmapE
  have hReq : R = fields := fields_ext hwfR hwf hpermFinal
  rw [hE, unflatten_json, hgo, hReq]
  rfl

/-! ### The translation pipeline: `translate_file` and `fetch_translation` -/

/-- `flat_map.values().cloned().collect::<HashSet<String>>()`: the set of
distinct source strings of a document, as a deduplicated list. -/
def unique_texts (m : Entries) : List String := (m.map Prod.snd).dedup

/-- A translation backend is a partial function; `none` models every
failure mode of `fetch_translation`'s call (transport error, bad JSON).
A `translatedText` field that is absent or non-string is already folded
into the source text by `body["translatedText"].as_str().unwrap_or(text)`,
so such responses are also represented by `none`. -/
abbrev Backend := String → String → Option String

/-- `fetch_translation(..).await.unwrap_or_else(|_| text.clone())`: the
per-string result, falling back to the source text on failure. -/
def fetch_result (backend : Backend) (text lang : String) : String :=
  (backend text lang).getD text

/-- One fetch future per unique source text for a given language (the
`futures.push(...)` loop). -/
def fetch_tasks (m : Entries) (lang : String) : List (String × String) :=
  (unique_texts m).map (fun t => (t, lang))

/-- The per-(document, language) `text_map` drained from the futures:
source text ↦ translated (or fallback) text. -/
def text_map (backend : Backend) (m : Entries) (lang : String) :
    List (String × String) :=
  (unique_texts m).map (fun t => (t, fetch_result backend t lang))

/-- `translations[lang].get(v).unwrap_or(v)`. -/
def lookup_translation (tm : List (String × String)) (v : String) : String :=
  (lookupKey v tm).getD v

/-- The `flat_translated` map: same keys as the input flat map, values
looked up in the language cache. -/
def flat_translated (backend : Backend) (m : Entries) (lang : String) : Entries :=
  m.map (fun kv => (kv.1, lookup_translation (text_map backend m lang) kv.2))

/-- The rebuilt output tree for one document and target language
(`unflatten_json(&flat_translated)`). -/
def output_tree (backend : Backend) (t : Json) (lang : String) : Option Json :=
  unflatten_json (flat_translated backend (flatten_json t "" []) lang)

/-! ### Serialization: `serde_json::to_string_pretty` -/

def hexDigit (n : Nat) : Char :=
  if n < 10 then Char.ofNat (48 + n) else Char.ofNat (87 + n)

def hex4 (n : Nat) : String :=
  String.mk [hexDigit ((n / 4096) % 16), hexDigit ((n / 256) % 16),
    hexDigit ((n / 16) % 16), hexDigit (n % 16)]

/-- JSON string escaping as performed by `serde_json`. -/
def escapeChar (c : Char) : String :=
  if c = '"' then "\\\""
  else if c = '\\' then "\\\\"
  else if c = '\x08' then "\\b"
  else if c = '\x0c' then "\\f"
  else if c = '\n' then "\\n"
  else if c = '\r' then "\\r"
  else if c = '\t' then "\\t"
  else if c.toNat < 32 then "\\u" ++ hex4 c.toNat
  else String.mk [c]

def escapeJson (s : String) : String := String.join (s.data.map escapeChar)

/-- Two-space indentation at depth `n` (serde's `PrettyFormatter`). -/
def indentStr (n : Nat) : String := String.mk (List.replicate (2 * n) ' ')

mutual

/-- `serde_json::to_string_pretty` at a given depth. -/
def pretty : Json → Nat → String
  | Json.null, _ => "null"
  | Json.bool b, _ => if b then "true" else "false"
  | Json.num n, _ => toString n
  | Json.str s, _ => "\"" ++ escapeJson s ++ "\""
  | Json.arr [], _ => "[]"
  | Json.arr (x :: xs), d =>
    "[\n" ++ prettyElems (x :: xs) (d + 1) ++ "\n" ++ indentStr d ++ "]"
  | Json.obj [], _ => "\x7b\x7d"
  | Json.obj (p :: rest), d =>
    "\x7b\n" ++ prettyItems (p :: rest) (d + 1) ++ "\n" ++ indentStr d ++ "\x7d"

def prettyItems : List (String × Json) → Nat → String
  | [], _ => ""
  | [(k, v)], d => indentStr d ++ "\"" ++ escapeJson k ++ "\": " ++ pretty v d
  | (k, v) :: p :: rest, d =>
    indentStr d ++ "\"" ++ escapeJson k ++ "\": " ++ pretty v d ++ ",\n"
      ++ prettyItems (p :: rest) d

def prettyElems : List Json → Nat → String
  | [], _ => ""
  | [x], d => indentStr d ++ pretty x d
  | x :: y :: rest, d =>
    indentStr d ++ pretty x d ++ ",\n" ++ prettyElems (y :: rest) d

end

/-- `serde_json::to_string_pretty(&value)`. -/
def to_string_pretty (t : Json) : String := pretty t 0

/-! ### The output writer -/

/-- The filesystem state relevant to one output path: whether the parent
directory chain exists, and the file's content if the file exists. -/
structure FSState where
  dirExists : Bool
  fileContent : Option String
deriving DecidableEq

/-- `fs::read_to_string(&out_path).unwrap_or_default()`. -/
def read_existing (fs : FSState) : String := fs.fileContent.getD ""

/-- Lines 141–148 of src/main.rs: `create_dir_all` on the parent, then
write the candidate only when it differs from the existing content.
Returns the new state and whether `fs::write` ran. -/
def write_output (fs : FSState) (candidate : String) : FSState × Bool :=
  let fs1 : FSState := { fs with dirExists := true }
  if read_existing fs1 ≠ candidate then
    ({ fs1 with fileContent := some candidate }, true)
  else (fs1, false)

/-! ### The concurrency bound (tokio `Semaphore`) -/

/-- Abstract state of the run: permits available in the process-wide
semaphore, tasks not yet holding a permit, backend calls in flight, and
completed calls. -/
structure SemState where
  available : Nat
  waiting : Nat
  inflight : Nat
  finished : Nat
deriving DecidableEq

/-- Steps of the fetch tasks: acquiring the scoped permit before the
backend call, and finishing the call (dropping the permit on every exit
path, success or fallback alike). -/
inductive SemStep : SemState → SemState → Prop where
  | acquire {s : SemState} (h : 0 < s.available) (hw : 0 < s.waiting) :
      SemStep s ⟨s.available - 1, s.waiting - 1, s.inflight + 1, s.finished⟩
  | finish {s : SemState} (h : 0 < s.inflight) :
      SemStep s ⟨s.available + 1, s.waiting, s.inflight - 1, s.finished + 1⟩

/-- `Semaphore::new(args.concurrency)` at process start: all permits
available, all fetch tasks (across all documents and languages) waiting. -/
def SemInit (bound tasks : Nat) : SemState :=
  ⟨bound, tasks, 0, 0⟩

/-- States reachable during the run. -/
def SemReachable (bound tasks : Nat) (s : SemState) : Prop :=
  Relation.ReflTransGen SemStep (SemInit bound tasks) s

/-! ### Pipeline helper lemmas -/

/-- Every successful `unflatten_json` result is an object at the root. -/
theorem unflatten_json_obj {m : Entries} {j : Json}
    (h : unflatten_json m = some j) : ∃ g, j = Json.obj g := by
  rw [unflatten_json] at h
  cases hgo : unflattenGo m [] with
  | none => rw [hgo] at h; simp at h
  | some R =>
    rw [hgo] at h
    have h2 : some (Json.obj R) = some j := h
    injection h2 with h3
    exact ⟨R, h3.symm⟩

theorem lookupKey_map_self {v : String} (l : List String) :
    lookupKey v (l.map (fun t => (t, t))) = some v
      ∨ lookupKey v (l.map (fun t => (t, t))) = none := by
  induction l with
  | nil => exact Or.inr rfl
  | cons t rest ih =>
    simp only [List.map_cons, lookupKey]
    split
    · exact Or.inl (by rw [‹v = t›])
    · exact ih

/-- With an always-failing backend every fetch falls back to its source
text, so the translated flat map is the input flat map. -/
theorem flat_translated_allfail {backend : Backend}
    (hfail : ∀ s l, backend s l = none) (m : Entries) (lang : String) :
    flat_translated backend m lang = m := by
  have htm : text_map backend m lang = (unique_texts m).map (fun t => (t, t)) := by
    rw [text_map]
    apply List.map_congr_left
    intro t _
    rw [fetch_result, hfail]
    rfl
  have hlookup : ∀ v, lookup_translation (text_map backend m lang) v = v := by
    intro v
    rw [lookup_translation, htm]
    rcases lookupKey_map_self (v := v) (unique_texts m) with h | h
    · rw [h]; rfl
    · rw [h]; rfl
  rw [flat_translated]
  have : m.map (fun kv => (kv.1, lookup_translation (text_map backend m lang) kv.2))
      = m.map id := by
    apply List.map_congr_left
    intro kv _
    rw [hlookup kv.2, id_eq]
  rw [this, List.map_id]

/-- Serialized objects are never the empty string (they start with a
brace). -/
theorem to_string_pretty_obj_ne_empty (g : List (String × Json)) :
    to_string_pretty (Json.obj g) ≠ "" := by
  cases g with
  | nil =>
    rw [to_string_pretty]
    intro h
    have := congrArg String.data h
    simp [pretty] at this
  | cons p rest =>
    rw [to_string_pretty]
    show "\x7b\n" ++ prettyItems (p :: rest) (0 + 1) ++ "\n" ++ indentStr 0 ++ "\x7d" ≠ ""
    apply string_append_ne_left
    apply string_append_ne_left
    apply string_append_ne_left
    intro h
    have := congrArg String.data h
    simp at this

/-- After `write_output`, the file holds exactly the candidate, provided
the candidate is nonempty. -/
theorem write_output_content (fs : FSState) {c : String} (hc : c ≠ "") :
    ((write_output fs c).1).fileContent = some c ∧ ((write_output fs c).1).dirExists = true := by
  rw [write_output]
  split
  · exact ⟨rfl, rfl⟩
  · rename_i h
    rw [not_ne_iff] at h
    refine ⟨?_, rfl⟩
    rw [read_existing] at h
    cases hfc : fs.fileContent with
    | none =>
      rw [hfc] at h
      simp only [Option.getD_none] at h
      exact absurd h.symm hc
    | some s =>
      rw [hfc] at h
      simp only [Option.getD_some] at h
      simpa [hfc] using congrArg some h

/-! ### Claim theorems -/

/-- Kernel-friendly proof principle for concrete `String` comparisons:
the order is lexicographic on the character lists. -/
theorem string_lt_of_lex {s t : String} (h : List.Lex (· < ·) s.data t.data) :
    s < t :=
  String.lt_iff_toList_lt.mpr h

/-- C1 (counterexample): the round-trip claim fails as stated.  The flat
mapping with the single key `".b"` is prefix-consistent (no key is a
strict prefix of another), yet flattening the rebuilt tree yields the key
`"b"`, not `".b"`: `flatten_json`'s `prefix.is_empty()` test conflates
the root with an empty first path segment. -/
theorem claim_C1_counterexample :
    unflatten_json [(".b", "x")]
      = some (Json.obj [("", Json.obj [("b", Json.str "x")])])
    ∧ flatten_json (Json.obj [("", Json.obj [("b", Json.str "x")])]) "" []
      ≠ [(".b", "x")] := by
  constructor
  · rfl
  · have h : flatten_json (Json.obj [("", Json.obj [("b", Json.str "x")])]) "" []
        = [("b", "x")] := by
      simp [flatten_json, joinKey, insertSorted]
    rw [h]
    decide

/-- C1 (amended): for every sorted flat mapping whose keys are pairwise
prefix-incomparable at segment boundaries (prefix-consistency) and none
of whose keys starts with the separator `'.'`, rebuilding the tree with
`unflatten_json` succeeds and flattening it restores exactly the
mapping: `flatten_json (unflatten_json m) = m`. -/
theorem claim_C1_flat_roundtrip (m : Entries)
    (hsort : SortedKeys m)
    (hpf : ∀ e ∈ m, ∀ e' ∈ m, e.1 ≠ e'.1 → ¬ splitDot e.1 <+: splitDot e'.1)
    (hdot : ∀ e ∈ m, e.1.data.head? ≠ some '.') :
    ∃ R, unflatten_json m = some (Json.obj R)
      ∧ flatten_json (Json.obj R) "" [] = m :=
  roundtrip_flat m hsort hpf hdot

/-- Witness for C1 at the concrete mapping `{"a.b" ↦ "x", "b" ↦ "y"}`. -/
theorem claim_C1_flat_roundtrip_witness :
    ∃ R, unflatten_json [("a.b", "x"), ("b", "y")] = some (Json.obj R)
      ∧ flatten_json (Json.obj R) "" [] = [("a.b", "x"), ("b", "y")] :=
  claim_C1_flat_roundtrip [("a.b", "x"), ("b", "y")]
    (List.Chain'.cons (string_lt_of_lex (by decide)) (List.chain'_singleton _))
    (by decide) (by decide)

/-- C2: the code does not report the conflict — it panics.  On the flat
mapping `{"a" ↦ "x", "a.b" ↦ "y"}` (key `"a"` is both a leaf and a
strict prefix of `"a.b"` at a segment boundary), `unflatten_json`
reaches `.as_object_mut().unwrap()` on the `Value::String` bound at
`"a"` and panics (modelled by `none`): no per-document error naming the
offending key is produced, the process crashes. -/
theorem claim_C2_collision_panics :
    unflatten_json [("a", "x"), ("a.b", "y")] = none := rfl

/-- C3: deduplication.  If the string `S` occurs as the value of at
least one flattened key of a document (however many keys `k ≥ 1` share
it), the per-language fetch loop creates exactly one fetch task for
`(S, lang)` — the backend is invoked once per unique string per
language, not once per occurrence. -/
theorem claim_C3_dedup_once (m : Entries) (S lang : String)
    (hocc : 0 < (m.map Prod.snd).count S) :
    (fetch_tasks m lang).count (S, lang) = 1 := by
  rw [fetch_tasks, unique_texts]
  have hcnt : ∀ (l : List String),
      (l.map (fun t => (t, lang))).count (S, lang) = l.count S := by
    intro l
    induction l with
    | nil => rfl
    | cons t rest ih =>
      by_cases h : t = S
      · subst h
        simp [List.count_cons, ih]
      · simp [List.count_cons, ih, beq_iff_eq, h]
  rw [hcnt]
  have hmem : S ∈ m.map Prod.snd := by
    by_contra hnot
    rw [List.count_eq_zero_of_not_mem hnot] at hocc
    exact lt_irrefl 0 hocc
  have hmemd : S ∈ (m.map Prod.snd).dedup := List.mem_dedup.mpr hmem
  exact List.count_eq_one_of_mem (List.nodup_dedup _) hmemd

/-- Witness for C3: `"Hello"` at two keys is fetched once for `"de"`. -/
theorem claim_C3_dedup_once_witness :
    (fetch_tasks [("a", "Hello"), ("b", "Hello")] "de").count ("Hello", "de") = 1 :=
  claim_C3_dedup_once [("a", "Hello"), ("b", "Hello")] "Hello" "de" (by decide)

/-- C10: every value `unflatten_json` returns is `Value::Object(root)` —
never a string, number, array, null or boolean at the root — and the
empty flat mapping rebuilds to the empty object. -/
theorem claim_C10_root_is_object :
    (∀ (m : Entries) (j : Json), unflatten_json m = some j → ∃ g, j = Json.obj g)
    ∧ unflatten_json [] = some (Json.obj []) :=
  ⟨fun _ _ h => unflatten_json_obj h, rfl⟩

/-- Witness for C10 at the mapping `{"a" ↦ "b"}`. -/
theorem claim_C10_root_is_object_witness :
    ∃ g, Json.obj [("a", Json.str "b")] = Json.obj g :=
  claim_C10_root_is_object.1 [("a", "b")] (Json.obj [("a", Json.str "b")]) rfl

/-- C4 (counterexample): with a backend that fails on every call, the
rebuilt output tree is NOT always equal to the input tree.  A non-string
leaf (here the number `5`) produces no flattened entry, so it is absent
from the rebuilt tree even though all fetches fell back to their source
text. -/
theorem claim_C4_counterexample :
    output_tree (fun _ _ => none) (Json.obj [("a", Json.num 5)]) "de"
      = some (Json.obj [])
    ∧ Json.obj [] ≠ Json.obj [("a", Json.num 5)] := by
  constructor
  · rw [output_tree]
    have h : flatten_json (Json.obj [("a", Json.num 5)]) "" [] = [] := by
      simp [flatten_json]
    rw [h]
    rfl
  · simp

/-- C4 (amended): if the backend fails (or returns no usable
`translatedText`) for every submitted string, each fetch result falls
back to its source text, so for every target language the translated
flat map equals the input flat map; consequently, the rebuilt output
tree equals `unflatten_json(flatten_json(input))`, which is the input
tree itself for every clean input tree (nested nonempty objects and
string leaves with dot-free nonempty keys). -/
theorem claim_C4_fallback_identity (backend : Backend)
    (hfail : ∀ s l, backend s l = none) :
    (∀ (m : Entries) (lang : String), flat_translated backend m lang = m)
    ∧ (∀ (t : Json) (lang : String),
        output_tree backend t lang = unflatten_json (flatten_json t "" []))
    ∧ (∀ (g : List (String × Json)) (lang : String), CleanFields g →
        output_tree backend (Json.obj g) lang = some (Json.obj g)) := by
  refine ⟨fun m lang => flat_translated_allfail hfail m lang, ?_, ?_⟩
  · intro t lang
    rw [output_tree, flat_translated_allfail hfail]
  · intro g lang hclean
    rw [output_tree, flat_translated_allfail hfail]
    exact roundtrip_tree hclean

/-- Witness for C4 at a concrete clean document. -/
theorem claim_C4_fallback_identity_witness :
    output_tree (fun _ _ => none) (Json.obj [("a", Json.str "x")]) "de"
      = some (Json.obj [("a", Json.str "x")]) := by
  refine (claim_C4_fallback_identity (fun _ _ => none) (fun _ _ => rfl)).2.2
    [("a", Json.str "x")] "de" ?_
  refine ⟨List.chain'_singleton _, ?_, ?_⟩
  · intro p hp
    simp only [List.mem_singleton] at hp
    subst hp
    exact ⟨by decide, by decide⟩
  · intro p hp
    simp only [List.mem_singleton] at hp
    subst hp
    exact CleanV.str "x"

/-- C5: the output writer performs no filesystem mutation at all when
the file already holds the candidate content (the state, including the
unconditional `create_dir_all`, is unchanged because an existing file's
parent directory exists), and missing parent directories are created
only on executions that also perform the write (a serialized object is
never the empty string, so a missing file never compares equal). -/
theorem claim_C5_idempotent_noop (fs : FSState) (g : List (String × Json))
    (hdirs : fs.fileContent.isSome → fs.dirExists = true) :
    (fs.fileContent = some (to_string_pretty (Json.obj g)) →
      write_output fs (to_string_pretty (Json.obj g)) = (fs, false))
    ∧ (fs.dirExists = false →
      (write_output fs (to_string_pretty (Json.obj g))).2 = true) := by
  constructor
  · intro hcontent
    have hdir : fs.dirExists = true := hdirs (by rw [hcontent]; rfl)
    have hfs1 : ({ fs with dirExists := true } : FSState) = fs := by
      cases fs
      simp_all
    simp only [write_output]
    rw [hfs1, if_neg (by rw [read_existing, hcontent]; simp)]
  · intro hdirf
    have hnone : fs.fileContent = none := by
      cases hfc : fs.fileContent with
      | none => rfl
      | some s =>
        rw [hdirs (by rw [hfc]; rfl)] at hdirf
        exact absurd hdirf (by simp)
    have hread : read_existing { fs with dirExists := true } = "" := by
      rw [read_existing]
      simp [hnone]
    simp only [write_output]
    rw [if_pos (by
      rw [hread]
      exact Ne.symm (to_string_pretty_obj_ne_empty g))]

/-- Witness for C5: a state already holding the candidate is returned
unchanged with no write. -/
theorem claim_C5_idempotent_noop_witness :
    write_output
        (FSState.mk true (some (to_string_pretty (Json.obj []))))
        (to_string_pretty (Json.obj []))
      = (FSState.mk true (some (to_string_pretty (Json.obj []))), false) :=
  (claim_C5_idempotent_noop (FSState.mk true (some (to_string_pretty (Json.obj []))))
    [] (fun _ => rfl)).1 rfl

/-- C6 (counterexample): the tree round-trip fails as stated.  The tree
`{"a.b": "x"}` contains only nested objects and string leaves, but its
flattening rebuilds to the nested `{"a": {"b": "x"}}`, because the
dotted-path encoding cannot represent a key containing `'.'`. -/
theorem claim_C6_counterexample :
    unflatten_json (flatten_json (Json.obj [("a.b", Json.str "x")]) "" [])
      = some (Json.obj [("a", Json.obj [("b", Json.str "x")])])
    ∧ Json.obj [("a", Json.obj [("b", Json.str "x")])]
      ≠ Json.obj [("a.b", Json.str "x")] := by
  constructor
  · have h : flatten_json (Json.obj [("a.b", Json.str "x")]) "" []
        = [("a.b", "x")] := by
      simp [flatten_json, joinKey, insertSorted]
    rw [h]
    rfl
  · intro h
    injection h with h2
    simp at h2

/-- C6 (amended): for every tree whose root is an object and whose nodes
are only (sorted, below the root nonempty) nested objects and string
leaves, with every key nonempty and free of the separator `'.'`,
rebuilding from its flattening is the identity:
`unflatten_json (flatten_json t) = some t`. -/
theorem claim_C6_tree_roundtrip (t : Json) (hclean : CleanRoot t) :
    unflatten_json (flatten_json t "" []) = some t := by
  cases t with
  | obj g => exact roundtrip_tree hclean
  | str s => exact absurd hclean (by simp [CleanRoot])
  | num n => exact absurd hclean (by simp [CleanRoot])
  | bool b => exact absurd hclean (by simp [CleanRoot])
  | null => exact absurd hclean (by simp [CleanRoot])
  | arr l => exact absurd hclean (by simp [CleanRoot])

/-- Witness for C6 at the nested tree `{"a": {"b": "x"}, "c": "y"}`. -/
theorem claim_C6_tree_roundtrip_witness :
    unflatten_json (flatten_json
        (Json.obj [("a", Json.obj [("b", Json.str "x")]), ("c", Json.str "y")]) "" [])
      = some (Json.obj [("a", Json.obj [("b", Json.str "x")]), ("c", Json.str "y")]) := by
  apply claim_C6_tree_roundtrip
  show CleanFields _
  refine ⟨List.Chain'.cons (string_lt_of_lex (by decide)) (List.chain'_singleton _), ?_, ?_⟩
  · intro p hp
    simp only [List.mem_cons, List.not_mem_nil, or_false] at hp
    rcases hp with rfl | rfl
    · exact ⟨by decide, by decide⟩
    · exact ⟨by decide, by decide⟩
  · intro p hp
    simp only [List.mem_cons, List.not_mem_nil, or_false] at hp
    rcases hp with rfl | rfl
    · refine CleanV.obj _ (by simp) (List.chain'_singleton _) ?_ ?_
      · intro q hq
        simp only [List.mem_singleton] at hq
        subst hq
        exact ⟨by decide, by decide⟩
      · intro q hq
        simp only [List.mem_singleton] at hq
        subst hq
        exact CleanV.str "x"
    · exact CleanV.str "y"

/-- C7: across the whole run, the number of simultaneously in-flight
backend calls never exceeds the configured bound: in every reachable
state of the shared-semaphore protocol, `available + inflight` is
conserved at the pool size (permits are released on every exit path),
hence `inflight ≤ bound`. -/
theorem claim_C7_concurrency_bound (bound tasks : Nat) (s : SemState)
    (h : SemReachable bound tasks s) :
    s.inflight ≤ bound ∧ s.available + s.inflight = bound := by
  have hinv : s.available + s.inflight = bound := by
    induction h with
    | refl => simp [SemInit]
    | tail hsteps hstep ih =>
      cases hstep with
      | acquire hav hw =>
        simp only [] at ih ⊢
        omega
      | finish hin =>
        simp only [] at ih ⊢
        omega
  exact ⟨by omega, hinv⟩

/-- Witness for C7 at a reachable state with one call in flight. -/
theorem claim_C7_concurrency_bound_witness :
    (SemState.mk 1 2 1 0).inflight ≤ 2
    ∧ (SemState.mk 1 2 1 0).available + (SemState.mk 1 2 1 0).inflight = 2 :=
  claim_C7_concurrency_bound 2 3 (SemState.mk 1 2 1 0)
    (Relation.ReflTransGen.single
      (SemStep.acquire (by decide) (by decide)))

/-- `write_output` is the identity (and does not write) on a state that
already holds the candidate and whose directories exist. -/
theorem write_output_noop {fs : FSState} {c : String}
    (hcontent : fs.fileContent = some c) (hdir : fs.dirExists = true) :
    write_output fs c = (fs, false) := by
  obtain ⟨d, f⟩ := fs
  simp only at hcontent hdir
  subst hcontent
  subst hdir
  simp [write_output, read_existing]

/-- C8: running the identical pipeline a second time performs zero file
writes.  Serialization is a deterministic function of the rebuilt tree
(objects carry sorted keys, whitespace is fixed), so the second run's
candidate equals the content present after the first run and the
content comparison skips the write, leaving the state unchanged. -/
theorem claim_C8_second_run_writes_nothing (fs : FSState) (backend : Backend)
    (t : Json) (lang : String) (out : Json)
    (hout : output_tree backend t lang = some out) :
    write_output ((write_output fs (to_string_pretty out)).1) (to_string_pretty out)
      = ((write_output fs (to_string_pretty out)).1, false) := by
  obtain ⟨g, rfl⟩ := unflatten_json_obj hout
  have hc : to_string_pretty (Json.obj g) ≠ "" := to_string_pretty_obj_ne_empty g
  obtain ⟨hcontent, hdir⟩ := write_output_content fs hc
  exact write_output_noop hcontent hdir

/-- Witness for C8: a fallback run over `{"a": "x"}` writes once, and a
second identical run writes nothing. -/
theorem claim_C8_second_run_writes_nothing_witness :
    write_output
        ((write_output (FSState.mk false none)
          (to_string_pretty (Json.obj [("a", Json.str "x")]))).1)
        (to_string_pretty (Json.obj [("a", Json.str "x")]))
      = ((write_output (FSState.mk false none)
          (to_string_pretty (Json.obj [("a", Json.str "x")]))).1, false) := by
  apply claim_C8_second_run_writes_nothing (FSState.mk false none)
    (fun _ _ => none) (Json.obj [("a", Json.str "x")]) "de"
  rw [output_tree]
  have h : flatten_json (Json.obj [("a", Json.str "x")]) "" [] = [("a", "x")] := by
    simp [flatten_json, joinKey, insertSorted]
  rw [h]
  rfl

/-- C9: non-string leaves (numbers, booleans, null, arrays) produce no
entry in the flattened mapping — at the top level and inside any object
— flattening never fails on them, and since the translated flat map has
exactly the keys of the input flat map, such leaves are absent from
every translated output tree. -/
theorem claim_C9_nonstring_leaves_dropped (pre : String) (m : Entries)
    (n : Int) (b : Bool) (l : List Json) (k : String)
    (rest : List (String × Json)) (backend : Backend) (lang : String) :
    flatten_json (Json.num n) pre m = m
    ∧ flatten_json (Json.bool b) pre m = m
    ∧ flatten_json Json.null pre m = m
    ∧ flatten_json (Json.arr l) pre m = m
    ∧ flatten_json (Json.obj ((k, Json.num n) :: rest)) pre m
        = flatten_json (Json.obj rest) pre m
    ∧ flatten_json (Json.obj ((k, Json.bool b) :: rest)) pre m
        = flatten_json (Json.obj rest) pre m
    ∧ flatten_json (Json.obj ((k, Json.null) :: rest)) pre m
        = flatten_json (Json.obj rest) pre m
    ∧ flatten_json (Json.obj ((k, Json.arr l) :: rest)) pre m
        = flatten_json (Json.obj rest) pre m
    ∧ (flat_translated backend m lang).map Prod.fst = m.map Prod.fst := by
  refine ⟨?_, ?_, ?_, ?_, ?_, ?_, ?_, ?_, ?_⟩ <;>
    simp [flatten_json, flat_translated]
